import Mathlib

/-
Verification development for the competitive-intelligence crawling platform.
Python strings are modelled as lists of code points (List Char), Python ints
as Int/Nat, Python floats as exact rationals (the float values occurring in
the relevant comparisons are either dyadic or compared against quantities
whose float rounding does not cross the decision boundary), and the opaque
64-bit SimHash fingerprint as an arbitrary function parameter reduced
mod 2^64 (mirroring the fallback implementation hash(text) % 2**64).
-/

namespace CIP

abbrev Str := List Char

/-- Python substring membership test (the in operator on str). -/
def infixOfB (needle : Str) : Str → Bool
  | [] => needle.isEmpty
  | c :: rest => needle.isPrefixOf (c :: rest) || infixOfB needle rest

/-- Python str.strip() whitespace set (ASCII part; the unicode spaces do not
occur in the texts handled here). -/
def isPySpace (c : Char) : Bool :=
  c = ' ' || c = '\t' || c = '\n' || c = '\r' || c = '\x0b' || c = '\x0c'

/-- Python s.strip(): drop whitespace from both ends. -/
def pyStrip (s : Str) : Str :=
  ((s.dropWhile isPySpace).reverse.dropWhile isPySpace).reverse

/-- Python s.lower() (ASCII case folding, which covers the phrase lists). -/
def pyLower (s : Str) : Str := s.map Char.toLower

/-- Python regex class backslash-w member test (ASCII part). -/
def isWordChar (c : Char) : Bool := c.isAlphanum || c = '_'

/-- Scanner of the whitespace-run collapse: the flag records whether the
previous character was inside a whitespace run already emitted. -/
def collapseWsGo : Bool → Str → Str
  | _, [] => []
  | inRun, c :: rest =>
    if isPySpace c then
      if inRun then collapseWsGo true rest
      else ' ' :: collapseWsGo true rest
    else c :: collapseWsGo false rest

/-- Python re.sub of one-or-more whitespace by a single space. -/
def collapseWs (s : Str) : Str := collapseWsGo false s

/-- ContentUtils normalize: lowercase, collapse whitespace, drop
characters that are neither word characters nor whitespace, strip. -/
def normalizeText (s : Str) : Str :=
  pyStrip ((collapseWs (pyLower s)).filter (fun c => isWordChar c || isPySpace c))

/-- Sum of the k lowest binary digits of a number. -/
def popCountAux : ℕ → ℕ → ℕ
  | 0, _ => 0
  | k + 1, m => popCountAux k (m / 2) + m % 2

/-- Number of set bits of a 64-bit value, used for the SimHash Hamming
distance (every fingerprint is reduced mod 2^64 first). -/
def popCount64 (n : ℕ) : ℕ := popCountAux 64 n

/-- Hamming distance between two 64-bit fingerprint values. -/
def hamming (a b : ℕ) : ℕ := popCount64 (Nat.xor a b)

/-- The Simhash(text).value of the source, parameterised by the opaque hash
and reduced to 64 bits exactly as the fallback class does. -/
def simhashValue (f : Str → ℕ) (s : Str) : ℕ := f s % 2 ^ 64

/-- Fingerprint of one paragraph: SimHash of its normalized text. -/
def fingerprint (f : Str → ℕ) (p : Str) : ℕ := simhashValue f (normalizeText p)

/-- The source comparison: similarity = 1 - distance/64, duplicate when
similarity is at least the threshold (inclusive). -/
def simBool (t : ℚ) (a b : ℕ) : Bool := decide (t ≤ 1 - (hamming a b : ℚ) / 64)

/-- Python content.split of the two-newline separator, left to right,
non-overlapping occurrences. -/
def parSplitAux : Str → Str → List Str
  | [], acc => [acc.reverse]
  | [c], acc => [(c :: acc).reverse]
  | c :: d :: rest, acc =>
    if c = '\n' && d = '\n' then acc.reverse :: parSplitAux rest []
    else parSplitAux (d :: rest) (c :: acc)

def parSplit (s : Str) : List Str := parSplitAux s []

/-- Python two-newline join of a paragraph list. -/
def joinPar : List Str → Str
  | [] => []
  | [p] => p
  | p :: ps => p ++ '\n' :: '\n' :: joinPar ps

/-- The paragraph list both dedup functions start from: split on blank
lines, strip each piece, keep the nonempty ones. -/
def paragraphsOf (content : Str) : List Str :=
  ((parSplit content).map pyStrip).filter (· ≠ [])

/-- State of the intra-page dedup loop of deduplicate_paragraphs: the
seen (hash, paragraph) pairs, the surviving paragraphs in order, and an
instrumentation flag recording whether a longer-duplicate replacement
was ever performed. -/
structure DState where
  seen : List (ℕ × Str)
  out : List Str
  repl : Bool

/-- Replace the first occurrence of q in the list by p (the source scans
deduplicated by index and breaks after the first hit). -/
def replaceFirstOut : List Str → Str → Str → List Str
  | [], _, _ => []
  | x :: xs, q, p => if x = q then p :: xs else x :: replaceFirstOut xs q p

/-- Replace the first seen pair whose paragraph is q by (h, p); the source
keeps the OLD hash h of the matched entry and only swaps the text. -/
def replaceFirstSeen : List (ℕ × Str) → Str → ℕ → Str → List (ℕ × Str)
  | [], _, _, _ => []
  | e :: es, q, h, p => if e.2 = q then (h, p) :: es else e :: replaceFirstSeen es q h p

/-- One iteration of the deduplicate_paragraphs loop over one paragraph. -/
def dedupStep (f : Str → ℕ) (t : ℚ) (minLen : ℕ) (st : DState) (p : Str) : DState :=
  if p.length < minLen then { st with out := st.out ++ [p] }
  else
    let h := fingerprint f p
    match st.seen.find? (fun e => simBool t e.1 h) with
    | none => ⟨st.seen ++ [(h, p)], st.out ++ [p], st.repl⟩
    | some e =>
      if e.2.length < p.length then
        if st.out.contains e.2 then
          ⟨replaceFirstSeen st.seen e.2 e.1 p, replaceFirstOut st.out e.2 p, true⟩
        else ⟨st.seen, st.out, true⟩
      else st

/-- The full run of the intra-page dedup loop on a paragraph list. -/
def dedupRun (f : Str → ℕ) (t : ℚ) (minLen : ℕ) (ps : List Str) : DState :=
  ps.foldl (dedupStep f t minLen) ⟨[], [], false⟩

/-- ContentUtils.deduplicate_paragraphs: remove near-duplicate paragraphs
within one page, keeping the longer of a duplicate pair in the earlier
slot. -/
def deduplicate_paragraphs (f : Str → ℕ) (t : ℚ) (minLen : ℕ) (content : Str) : Str :=
  if content.isEmpty || (pyStrip content).isEmpty then []
  else
    let paragraphs := paragraphsOf content
    if paragraphs.length ≤ 1 then content
    else joinPar (dedupRun f t minLen paragraphs).out

/-- The final cascade-resolved record for one URL (the result dict of
crawl_pages: url, deduplicated_markdown, success flag, error). -/
structure PageRec where
  url : Str
  content : Str
  success : Bool
  error : Option Str
deriving DecidableEq

/-- One step of the aggregate_and_dedup inner loop: a paragraph similar to
any pooled fingerprint is dropped, otherwise pooled and kept. -/
def aggParaStep (f : Str → ℕ) (t : ℚ) (url : Str)
    (st : List (ℕ × Str × Str) × List Str) (p : Str) :
    List (ℕ × Str × Str) × List Str :=
  let h := fingerprint f p
  if (st.1.find? (fun e => simBool t e.1 h)).isSome then st
  else (st.1 ++ [(h, p, url)], st.2 ++ [p])

/-- Process one page of aggregate_and_dedup against the global pool. -/
def aggPage (f : Str → ℕ) (t : ℚ) (pool : List (ℕ × Str × Str)) (page : PageRec) :
    List (ℕ × Str × Str) × PageRec :=
  if page.content.isEmpty || (pyStrip page.content).isEmpty then (pool, page)
  else
    let r := (paragraphsOf page.content).foldl (aggParaStep f t page.url) (pool, [])
    (r.1, { page with content := joinPar r.2 })

/-- Pool resulting from processing one page against the given pool. -/
def aggPool (f : Str → ℕ) (t : ℚ) (pool : List (ℕ × Str × Str)) (page : PageRec) :
    List (ℕ × Str × Str) :=
  ((paragraphsOf page.content).foldl (aggParaStep f t page.url) (pool, [])).1

/-- Paragraphs kept on one page after cross-page dedup against the pool. -/
def aggKept (f : Str → ℕ) (t : ℚ) (pool : List (ℕ × Str × Str)) (page : PageRec) :
    List Str :=
  ((paragraphsOf page.content).foldl (aggParaStep f t page.url) (pool, [])).2

/-- ContentUtils.aggregate_and_dedup: cross-page dedup over the ordered
page list with a global first-occurrence-wins pool. -/
def aggregate_and_dedup (f : Str → ℕ) (t : ℚ) (pages : List PageRec) : List PageRec :=
  if pages.length ≤ 1 then pages
  else
    (pages.foldl
      (fun st pg =>
        let r := aggPage f t st.1 pg
        (r.1, st.2 ++ [r.2]))
      (([] : List (ℕ × Str × Str)), ([] : List PageRec))).2

/-- The per-page output thread of aggregate_and_dedup: each page is
processed against the fingerprint pool accumulated over all pages to its
left. -/
def aggPools (f : Str → ℕ) (t : ℚ) (pool : List (ℕ × Str × Str)) :
    List PageRec → List PageRec
  | [] => []
  | pg :: pgs =>
    (aggPage f t pool pg).2 :: aggPools f t (aggPage f t pool pg).1 pgs

/-- The fingerprint pool after aggregate_and_dedup has processed a list of
pages, starting from the given pool. -/
def aggPoolAfter (f : Str → ℕ) (t : ℚ) (pool : List (ℕ × Str × Str)) :
    List PageRec → List (ℕ × Str × Str)
  | [] => pool
  | pg :: pgs => aggPoolAfter f t (aggPage f t pool pg).1 pgs

/-- Last-entry-wins lookup of a level result by URL, modelling the Python
dict comprehension keyed by the url field. -/
def lookupLast (rs : List PageRec) (u : Str) : Option PageRec :=
  rs.foldl (fun acc r => if r.url = u then some r else acc) none

/-- How one tier's result list updates the running record of one URL: a
success replaces the record, a failure only updates its error message. -/
def levelEntry (lr : List PageRec) (r : PageRec) : PageRec :=
  match lookupLast lr r.url with
  | some x => if x.success then x else { r with error := x.error }
  | none => r

/-- Merge one tier's results into the running per-URL records. -/
def levelUpdate (results : List PageRec) (lr : List PageRec) : List PageRec :=
  results.map (levelEntry lr)

/-- URLs carried to the next tier: the ones not finalized by this tier. -/
def nextToTry (lr : List PageRec) (toTry : List Str) : List Str :=
  toTry.filter fun u =>
    match lookupLast lr u with
    | some x => !x.success
    | none => true

/-- The finalization step of crawl_pages: cross-page dedup when more than
one record (threshold 0.85, on the deduplicated_markdown field). -/
def finalizeResults (f : Str → ℕ) (results : List PageRec) : List PageRec :=
  if 1 < results.length then aggregate_and_dedup f (17/20) results else results

/-- CrawlAdapter.crawl_pages: initialize one failed record per URL, run the
configured tiers in order (each tier is an opaque fetch function from the
outstanding URLs to result records), finalize. An empty outstanding set
makes later tiers no-ops, which is the loop break of the source. -/
def crawlStep (st : List PageRec × List Str) (lvl : List Str → List PageRec) :
    List PageRec × List Str :=
  if st.2.isEmpty then st
  else (levelUpdate st.1 (lvl st.2), nextToTry (lvl st.2) st.2)

/-- CrawlAdapter.crawl_pages: one failed record per URL, run the tiers in
order via crawlStep, then finalize. -/
def crawl_pages (f : Str → ℕ) (levels : List (List Str → List PageRec))
    (urls : List Str) : List PageRec :=
  if urls.isEmpty then []
  else
    finalizeResults f
      (levels.foldl crawlStep
        (urls.map fun u => PageRec.mk u [] false (some "Not yet attempted".data),
         urls)).1

/-- Shape of one entry of the crawl tool result delivered to the reasoning
process (a Python dict whose keys differ between the two return paths). -/
structure ToolEntry where
  url : Str
  markdown : Option Str
  success : Option Bool
  error : Option Str
deriving DecidableEq

/-- The tools crawl_tool: empty input gives an empty list; if the crawl
raised (exc), one failure entry per URL; otherwise ONLY the successful
page records are kept, reshaped to url and markdown. -/
def crawl_tool (f : Str → ℕ) (levels : List (List Str → List PageRec))
    (exc : Option Str) (urls : List Str) : List ToolEntry :=
  if urls.isEmpty then []
  else
    match exc with
    | some e => urls.map fun u => ⟨u, none, some false, some e⟩
    | none =>
      ((crawl_pages f levels urls).filter (·.success)).map fun p =>
        ⟨p.url, some p.content, none, none⟩

/-- The security indicator phrase list of CrawlAdapter. -/
def securityIndicators : List String :=
  ["cloudflare", "cf-ray", "ddos protection", "ddos-guard",
   "captcha", "recaptcha", "hcaptcha", "im not a robot",
   "solve the captcha", "complete the captcha",
   "access denied", "forbidden", "bot detection",
   "blocked", "access blocked", "ip blocked",
   "security check", "verify you are human", "human verification",
   "confirm you are human", "prove you are human",
   "are you a robot", "verify that you are not a robot",
   "rate limit", "too many requests", "suspicious activity",
   "request limit exceeded", "temporarily blocked",
   "firewall", "incapsula", "imperva", "sucuri", "akamai",
   "turnstile", "perimeterx", "radware", "barracuda",
   "datadome", "distil", "kasada",
   "javascript required", "enable javascript", "browser check",
   "javascript is required", "please enable javascript",
   "your browser does not support javascript",
   "loading...", "please wait", "redirecting",
   "checking your browser", "just a moment",
   "one moment please", "verifying your browser",
   "enable cookies", "accept cookies", "cookie consent",
   "cookies required", "please accept cookies",
   "this site uses cookies",
   "manage cookies", "cookie settings",
   "security challenge", "complete security check",
   "verification required", "additional verification",
   "not available in your region", "geo-blocked",
   "service unavailable in your location",
   "unusual traffic", "automated requests detected",
   "suspected automated behavior", "unusual activity"]

/-- The additional HTML security pattern list of CrawlAdapter. -/
def securityPatterns : List String :=
  ["<title>just a moment", "<title>please wait",
   "<title>access denied", "<title>blocked",
   "data-cf-beacon", "cf-browser-verification",
   "cookie-banner", "cookie-notice", "gdpr-banner"]

/-- CrawlAdapter is_security_challenge: any markdown shorter than 1000
stripped characters counts as a challenge, then phrase scans. -/
def is_security_challenge (md : Str) : Bool :=
  if md.isEmpty || (pyStrip md).length < 1000 then true
  else
    let lower := pyLower md
    if securityIndicators.any (fun ind => infixOfB ind.data lower) then true
    else if securityPatterns.any (fun pat => infixOfB pat.data lower) then true
    else false

/-- CrawlAdapter looks_blocked_or_empty: short markdown, security
challenge, or a visible-text ratio below two percent. The url and
status arguments are carried but, as in the source, never branch. -/
def looks_blocked_or_empty (url : Str) (status : ℤ) (html md : Str) : Bool :=
  if md.isEmpty || (pyStrip md).length < 150 then true
  else if is_security_challenge md then true
  else if (md.length : ℚ) / (max (html.length : ℚ) 1) < 2 / 100 then true
  else false

/-- Per-session resource ceilings of the budget manager (Python ints). -/
structure Budget where
  queries : ℤ
  pages : ℤ
  seconds : ℤ
  evidence_tokens : ℤ
  ai_overviews : ℤ
  pdf : ℤ
  google_ads : ℤ

/-- Running usage counters, same fields as the ceilings. -/
structure Usage where
  queries : ℤ
  pages : ℤ
  seconds : ℤ
  evidence_tokens : ℤ
  ai_overviews : ℤ
  pdf : ℤ
  google_ads : ℤ

/-- BudgetManager.inc: add the given deltas to the usage counters. -/
def incUsage (u : Usage) (d : Usage) : Usage :=
  ⟨u.queries + d.queries, u.pages + d.pages, u.seconds + d.seconds,
   u.evidence_tokens + d.evidence_tokens, u.ai_overviews + d.ai_overviews,
   u.pdf + d.pdf, u.google_ads + d.google_ads⟩

/-- BudgetManager.check_limits hard-stop condition: true means the
RuntimeError marking the session exhausted is raised. The seconds
counter is not part of the disjunction in the source. -/
def check_limits (b : Budget) (u : Usage) : Bool :=
  decide (b.queries ≤ u.queries) || decide (b.pages ≤ u.pages) ||
  decide (b.evidence_tokens ≤ u.evidence_tokens) ||
  decide (b.ai_overviews ≤ u.ai_overviews) ||
  decide (b.pdf ≤ u.pdf) || decide (b.google_ads ≤ u.google_ads)

/-- Value of a budget_cost registry entry: the source stores Python ints
for most tools but literal strings for the serp and crawl entries. -/
inductive CostV where
  | intV (n : ℤ)
  | strV (s : String)
deriving DecidableEq

/-- First-match association lookup with default, modelling dict.get. -/
def dictGet {α : Type} (d : List (String × α)) (k : String) (dflt : α) : α :=
  match d.find? (fun e => e.1 = k) with
  | some e => e.2
  | none => dflt

/-- Association update modelling dict item assignment. -/
def dictSet {α : Type} (d : List (String × α)) (k : String) (v : α) : List (String × α) :=
  if d.any (fun e => e.1 = k) then
    d.map (fun e => if e.1 = k then (k, v) else e)
  else d ++ [(k, v)]

/-- The budget_cost dicts of TOOL_REGISTRY. -/
def registryCost (name : String) : Option (List (String × CostV)) :=
  if name = "pdf" then some [("pdf", .intV 1)]
  else if name = "google_ads" then some [("google_ads", .intV 1)]
  else if name = "serp" then some [("queries", .strV "len(queries)")]
  else if name = "crawl" then some [("urls", .strV "len(urls)")]
  else if name = "extract_links" then some [("urls", .intV 1)]
  else if name = "ai_overview" then some [("ai_overviews", .intV 1)]
  else if name = "search_linkedin_posts" then some []
  else none

/-- get_tool_cost: registry cost, with the crawl entry overridden by the
dynamic page and second counts from the url list length of the args. -/
def get_tool_cost (name : String) (urlCount : ℕ) : List (String × CostV) :=
  match registryCost name with
  | none => [("queries", .intV 0), ("pages", .intV 0), ("seconds", .intV 0)]
  | some base =>
    if name = "crawl" then
      dictSet (dictSet base "pages" (.intV urlCount)) "seconds" (.intV (2 * urlCount))
    else base

/-- can_afford_tool with Python short-circuit evaluation; comparing an int
with a string cost value raises TypeError, modelled as the error case. -/
def can_afford_tool (budget_remaining : List (String × ℤ)) (name : String)
    (urlCount : ℕ) : Except String Bool :=
  let cost := get_tool_cost name urlCount
  let qa := dictGet budget_remaining "queries" 0
  let pa := dictGet budget_remaining "pages" 0
  match dictGet cost "queries" (.intV 0) with
  | .strV _ => .error "TypeError"
  | .intV qn =>
    if qa < qn then .ok false
    else
      match dictGet cost "pages" (.intV 0) with
      | .strV _ => .error "TypeError"
      | .intV pn => .ok (decide (pn ≤ pa))

/-- Window length of the fixed-window limiter in its own time unit (the
source multiplies the epoch seconds by 1500 and uses windows of 1500
such units, i.e. windows of exactly one second). -/
def windowUnits : ℕ := 1500

inductive AcqOutcome where
  | admitted
  | sleepUntil (t : ℕ)
deriving DecidableEq

/-- One iteration of RedisFixedWindowRPS.acquire at integer time now (in
1/1500 second units): on a store error admit without touching the
counter (fail open); otherwise increment this window's counter and
admit iff the post-increment value is within the rate, else sleep to
the next window boundary. -/
def acquireStep (rps : ℕ) (store : ℕ → ℕ) (now : ℕ) (err : Bool) :
    (ℕ → ℕ) × AcqOutcome :=
  let bucket := now / windowUnits
  if err then (store, .admitted)
  else
    let store' := fun b => if b = bucket then store b + 1 else store b
    if store bucket + 1 ≤ rps then (store', .admitted)
    else (store', .sleepUntil (now + (windowUnits - now % windowUnits)))

/-- The while-true loop of acquire over a timeline of wake times and
store-error events, with fuel for totality. -/
def acquireLoop (rps : ℕ) (times : ℕ → ℕ) (errs : ℕ → Bool) :
    (ℕ → ℕ) → ℕ → ℕ → Option (ℕ → ℕ)
  | _, _, 0 => none
  | store, k, fuel + 1 =>
    let r := acquireStep rps store (times k) (errs k)
    match r.2 with
    | .admitted => some r.1
    | .sleepUntil _ => acquireLoop rps times errs r.1 (k + 1) fuel

/-- The bucket index computed by the source from a real timestamp q in
seconds: int(q * 1500) // 1500 (floor division on nonnegative ints). -/
def bucketOfTime (q : ℚ) : ℤ := ⌊q * 1500⌋ / 1500

/-- Backoff of the token limiter after the given retry count: half a
second per retry, capped at five seconds. -/
def backoff (retry : ℕ) : ℚ := min 5 ((1 / 2) * retry)

/-- The retry loop of RedisRateLimiter.reserve_tokens. Per iteration k:
first the timeout check (strictly greater than maxWait returns failure),
then the try block, where a store error admits (fail open), sufficient
available capacity (limit minus usage, as a possibly negative int)
admits, and otherwise the loop sleeps the backoff and retries. Elapsed
time accrues the sleeps; fuel makes the loop total. -/
def reserveAux (limit cost : ℕ) (maxWait : ℚ) (usage : ℕ → ℕ) (errs : ℕ → Bool) :
    ℚ → ℕ → ℕ → Option Bool
  | _, _, 0 => none
  | elapsed, k, fuel + 1 =>
    if maxWait < elapsed then some false
    else if errs k then some true
    else if (cost : ℤ) ≤ (limit : ℤ) - (usage k : ℤ) then some true
    else reserveAux limit cost maxWait usage errs (elapsed + backoff (k + 1)) (k + 1) fuel

/-- RedisRateLimiter.reserve_tokens: a request larger than the whole
capacity is admitted unconditionally before the loop starts. -/
def reserve_tokens (limit cost : ℕ) (maxWait : ℚ) (usage : ℕ → ℕ)
    (errs : ℕ → Bool) (fuel : ℕ) : Option Bool :=
  if limit < cost then some true
  else reserveAux limit cost maxWait usage errs 0 0 fuel

/-- Two adjacent newlines occur somewhere in the text. -/
def hasNN : Str → Bool
  | c :: d :: rest => (c = '\n' && d = '\n') || hasNN (d :: rest)
  | _ => false

/-- The first character exists and is whitespace. -/
def headWs : Str → Bool
  | [] => false
  | c :: _ => isPySpace c

/-- The last character exists and is whitespace. -/
def lastWs (s : Str) : Bool := headWs s.reverse

/-- The last character exists and is a newline. -/
def endsNL (s : Str) : Bool := s.getLast? == some '\n'

/-- Textual invariant of every stripped nonempty paragraph piece: needed
for the split-join round trip of the dedup functions. -/
def goodPara (p : Str) : Prop :=
  p ≠ [] ∧ pyStrip p = p ∧ hasNN p = false ∧ endsNL p = false

/-- Minimum-length predicate of the intra-page dedup. -/
def longPara (minLen : ℕ) (p : Str) : Prop := minLen ≤ p.length

/-- Dissimilarity relation used to state that a paragraph list is free of
near-duplicate pairs among its long members. -/
def NoSim (f : Str → ℕ) (t : ℚ) (minLen : ℕ) (p q : Str) : Prop :=
  longPara minLen p → longPara minLen q →
    simBool t (fingerprint f p) (fingerprint f q) = false

/-- The seen list rebuilt from an output list: one entry per long
paragraph, in order, with its own fingerprint. -/
def seenOf (f : Str → ℕ) (minLen : ℕ) (l : List Str) : List (ℕ × Str) :=
  (l.filter (fun p => decide (minLen ≤ p.length))).map (fun p => (fingerprint f p, p))

/-- Whitespace test on an optional boundary character. -/
def headCharWs (o : Option Char) : Bool :=
  match o with
  | some c => isPySpace c
  | none => false

/-- Concrete fingerprint assignment used as counterexample input: the three
paragraph texts get hash values 0, 31 and 8191, whose pairwise Hamming
distances are 5, 8 and 13 (at threshold 0.85 over 64 bits, distances up
to 9 count as duplicates). -/
def cexHash : Str → ℕ := fun s =>
  if s = List.replicate 50 'a' then 0
  else if s = List.replicate 60 'b' then 31
  else 8191

/-- Concrete three-paragraph input text for the idempotence counterexample. -/
def cexContent : Str :=
  joinPar [List.replicate 50 'a', List.replicate 60 'b', List.replicate 55 'c']

/-- Concrete fingerprint assignment used as witness input for the
threshold-boundary theorem (threshold 7/8 over 64 bits: distance 8 sits
exactly on the boundary, distance 9 one bit below it). -/
def bndHash : Str → ℕ := fun s =>
  if s = List.replicate 50 'a' then 0
  else if s = List.replicate 50 'b' then 255
  else if s = List.replicate 50 'c' then 0
  else if s = List.replicate 50 'd' then 511
  else if s = List.replicate 50 'e' then 0
  else if s = List.replicate 50 'f' then 2 ^ 64 - 1
  else 0

/-- Concrete fingerprint assignment for the cross-page dedup witness:
alpha, beta and gamma get hash values with pairwise Hamming distances
20, 40 and 20, all far above the 9-bit merge radius of threshold 0.85,
while the repeated paragraph matches itself at distance 0. -/
def fpC5 : Str → ℕ := fun s =>
  if s = "beta".data then 0
  else if s = "alpha".data then 1048575
  else 1099511627775

/-- Three-page batch for the cross-page dedup witness: the paragraph
"beta" appears on the second and on the third page. -/
def pagesC5 : List PageRec :=
  [⟨"u1".data, "alpha".data, true, none⟩,
   ⟨"u2".data, "beta".data, true, none⟩,
   ⟨"u3".data, joinPar ["beta".data, "gamma".data], true, none⟩]

/-- Default record for positional lookups in the witness. -/
def dC5 : PageRec := ⟨[], [], false, none⟩

-- ===== THEOREMS =====

/-- C10: at the lightweight requests tier, any page whose converted
markdown strips to fewer than 1000 characters is classified as blocked
or empty and therefore escalated, regardless of its url, HTTP status or
html: the security-challenge check treats every sub-1000-character text
as a failure, so the effective minimum length is 1000, not the 150 of
the emptiness check that runs first. -/
theorem requests_tier_min_length_1000 (url : Str) (status : ℤ) (html md : Str)
    (h : (pyStrip md).length < 1000) :
    looks_blocked_or_empty url status html md = true := by
  by_cases h150 : (pyStrip md).length < 150
  · by_cases hemp : md.isEmpty
    · simp [looks_blocked_or_empty, hemp]
    · simp [looks_blocked_or_empty, hemp, h150]
  · have hemp : md.isEmpty = false := by
      cases md with
      | nil => exact absurd (by simp [pyStrip]) h150
      | cons c cs => rfl
    have hch : is_security_challenge md = true := by
      simp [is_security_challenge, hemp, h]
    simp [looks_blocked_or_empty, hemp, h150, hch]

set_option maxRecDepth 40000 in
theorem requests_tier_min_length_1000_witness :
    (pyStrip (List.replicate 500 'x')).length < 1000 ∧
      looks_blocked_or_empty [] 200 [] (List.replicate 500 'x') = true :=
  ⟨by decide, requests_tier_min_length_1000 [] 200 [] _ (by decide)⟩

/-- C6: one acquire iteration of the fixed-window limiter increments the
counter of the current window, admits immediately exactly when the
post-increment value is within the configured rate, and otherwise
sleeps precisely to the next window boundary; the window of the source
(1500 units of 1/1500 second) is exactly one second: the bucket index
computed from a nonnegative real timestamp is its floor in seconds. -/
theorem fixed_window_acquire_spec (rps : ℕ) (store : ℕ → ℕ) (now : ℕ)
    (q : ℚ) (hq : 0 ≤ q) :
    ((acquireStep rps store now false).2 = .admitted ↔
      store (now / windowUnits) + 1 ≤ rps) ∧
    (acquireStep rps store now false).1 (now / windowUnits) =
      store (now / windowUnits) + 1 ∧
    (rps < store (now / windowUnits) + 1 →
      (acquireStep rps store now false).2 =
        .sleepUntil ((now / windowUnits + 1) * windowUnits)) ∧
    bucketOfTime q = ⌊q⌋ := by
  refine ⟨?_, ?_, ?_, ?_⟩
  · by_cases hle : store (now / windowUnits) + 1 ≤ rps
    · simp [acquireStep, hle]
    · simp [acquireStep, hle]
  · by_cases hle : store (now / windowUnits) + 1 ≤ rps <;>
      simp [acquireStep, hle]
  · intro hgt
    have hle : ¬ store (now / windowUnits) + 1 ≤ rps := by omega
    simp only [windowUnits] at hle ⊢
    have hbound : now + (1500 - now % 1500) = (now / 1500 + 1) * 1500 := by
      omega
    simp [acquireStep, windowUnits, hle, hbound]
  · have h15 : (0 : ℚ) ≤ q * 1500 := by positivity
    have h1 : ((⌊q * 1500⌋₊ : ℕ) : ℤ) = ⌊q * 1500⌋ :=
      Int.natCast_floor_eq_floor h15
    have h2 : ((⌊q⌋₊ : ℕ) : ℤ) = ⌊q⌋ := Int.natCast_floor_eq_floor hq
    have h3 : ⌊q⌋₊ = ⌊q * 1500⌋₊ / 1500 := by
      have hdiv : ⌊q * 1500 / ((1500 : ℕ) : ℚ)⌋₊ = ⌊q * 1500⌋₊ / 1500 :=
        Nat.floor_div_nat (q * 1500) 1500
      have hq15 : q * 1500 / ((1500 : ℕ) : ℚ) = q := by
        push_cast
        ring_nf
      rw [hq15] at hdiv
      exact hdiv
    rw [bucketOfTime, ← h1, ← h2, h3]
    exact (Int.natCast_div _ 1500).symm

theorem fixed_window_acquire_spec_witness :
    bucketOfTime (7 / 2) = 3 ∧ (acquireStep 2 (fun _ => 0) 100 false).2 = .admitted := by
  have h := fixed_window_acquire_spec 2 (fun _ => 0) 100 (7 / 2) (by norm_num)
  refine ⟨?_, h.1.mpr (by decide)⟩
  rw [h.2.2.2]
  norm_num

/-- Helper for C7: when capacity is never available and the store never
errors, the reserve loop returns an explicit failure as soon as the
accrued backoff exceeds maxWait; fuel of at least 2(maxWait - elapsed)+2
iterations suffices since every backoff is at least half a second. -/
theorem reserveAux_never (limit cost : ℕ) (maxWait : ℚ) (usage : ℕ → ℕ)
    (errs : ℕ → Bool)
    (hnever : ∀ k, (limit : ℤ) - usage k < cost)
    (hnoerr : ∀ k, errs k = false) :
    ∀ fuel : ℕ, ∀ elapsed : ℚ, ∀ k : ℕ,
      2 * (maxWait - elapsed) + 2 ≤ (fuel : ℚ) → 1 ≤ fuel →
      reserveAux limit cost maxWait usage errs elapsed k fuel = some false := by
  intro fuel
  induction fuel with
  | zero => intro _ _ _ h1; omega
  | succ f ih =>
    intro elapsed k hfuel _
    by_cases ht : maxWait < elapsed
    · rw [reserveAux, if_pos ht]
    · push_neg at ht
      have hcond : ¬ ((cost : ℤ) ≤ (limit : ℤ) - (usage k : ℤ)) :=
        not_le.mpr (hnever k)
      rw [reserveAux, if_neg (not_lt.mpr ht), if_neg (by simp [hnoerr k]),
        if_neg hcond]
      have hk1 : (1 : ℚ) ≤ ((k + 1 : ℕ) : ℚ) := by
        exact_mod_cast Nat.one_le_iff_ne_zero.mpr (Nat.succ_ne_zero k)
      have hb : (1 : ℚ) / 2 ≤ backoff (k + 1) := by
        unfold backoff
        refine le_min (by norm_num) ?_
        push_cast
        linarith
      push_cast at hfuel
      have hf1 : 1 ≤ f := by
        have : (1 : ℚ) ≤ (f : ℚ) := by linarith
        exact_mod_cast this
      refine ih (elapsed + backoff (k + 1)) (k + 1) ?_ hf1
      linarith

/-- C7: a reservation whose token count exceeds total capacity is
admitted immediately and unconditionally, before the wait loop starts;
a reservation at or below capacity for which capacity never becomes
available returns an explicit failure once maxWait is exceeded instead
of blocking forever (fuel of 2 maxWait + 2 loop iterations provably
suffices, so the loop terminates). -/
theorem reserve_tokens_overflow_and_timeout
    (limit cost : ℕ) (maxWait : ℚ) (usage : ℕ → ℕ) (errs : ℕ → Bool) (fuel : ℕ)
    (limit2 cost2 : ℕ) (maxWait2 : ℚ) (usage2 : ℕ → ℕ) (errs2 : ℕ → Bool)
    (fuel2 : ℕ)
    (hover : limit < cost)
    (hcap : cost2 ≤ limit2)
    (hnever : ∀ k, (limit2 : ℤ) - usage2 k < cost2)
    (hnoerr : ∀ k, errs2 k = false)
    (hmw : 0 ≤ maxWait2)
    (hfuel : 2 * maxWait2 + 2 ≤ (fuel2 : ℚ)) :
    reserve_tokens limit cost maxWait usage errs fuel = some true ∧
      reserve_tokens limit2 cost2 maxWait2 usage2 errs2 fuel2 = some false := by
  constructor
  · rw [reserve_tokens, if_pos hover]
  · rw [reserve_tokens, if_neg (not_lt.mpr hcap)]
    have hf1 : 1 ≤ fuel2 := by
      have : (1 : ℚ) ≤ (fuel2 : ℚ) := by linarith
      exact_mod_cast this
    refine reserveAux_never limit2 cost2 maxWait2 usage2 errs2 hnever hnoerr
      fuel2 0 0 ?_ hf1
    linarith

theorem reserve_tokens_overflow_and_timeout_witness :
    reserve_tokens 10 20 1 (fun _ => 0) (fun _ => false) 0 = some true ∧
      reserve_tokens 100 50 1 (fun _ => 100) (fun _ => false) 10 = some false :=
  reserve_tokens_overflow_and_timeout 10 20 1 (fun _ => 0) (fun _ => false) 0
    100 50 1 (fun _ => 100) (fun _ => false) 10
    (by norm_num) (by norm_num) (fun k => by norm_num) (fun k => rfl)
    (by norm_num) (by norm_num)

/-- C8: both rate limiters fail open on a failure of the shared counter
store: an acquire iteration whose increment raises admits the request
immediately (leaving the counter untouched), and a reserve iteration
inside the wait window whose store access raises returns success
instead of blocking or propagating the error. -/
theorem rate_limiters_fail_open (rps : ℕ) (store : ℕ → ℕ) (now : ℕ)
    (limit cost : ℕ) (maxWait elapsed : ℚ) (usage : ℕ → ℕ) (errs : ℕ → Bool)
    (k fuel : ℕ) (hel : elapsed ≤ maxWait) (herr : errs k = true) :
    acquireStep rps store now true = (store, .admitted) ∧
      reserveAux limit cost maxWait usage errs elapsed k (fuel + 1) = some true := by
  constructor
  · rfl
  · rw [reserveAux, if_neg (not_lt.mpr hel), if_pos herr]

theorem rate_limiters_fail_open_witness :
    acquireStep 5 (fun _ => 3) 42 true = ((fun _ => 3), .admitted) ∧
      reserveAux 100 10 60 (fun _ => 0) (fun _ => true) 0 0 1 = some true :=
  rate_limiters_fail_open 5 (fun _ => 3) 42 100 10 60 0 (fun _ => 0)
    (fun _ => true) 0 0 (by norm_num) rfl

/-- C3 counterexample: a pdf tool call whose declared pdf cost (1)
strictly exceeds the remaining pdf budget (0) is nevertheless admitted
by can_afford_tool, so the claim that a call whose projected post-call
usage of any resource exceeds that budget is refused fails on the code. -/
theorem budget_gate_counterexample :
    can_afford_tool [("queries", 5), ("pages", 5), ("pdf", 0)] "pdf" 0 =
      .ok true ∧
    dictGet (get_tool_cost "pdf" 0) "pdf" (CostV.intV 0) = .intV 1 ∧
    dictGet [("queries", (5 : ℤ)), ("pages", 5), ("pdf", 0)] "pdf" 0 = 0 :=
  ⟨rfl, rfl, rfl⟩

/-- C3 amended: within a session the usage counters are non-decreasing
whenever the dispatched deltas are nonnegative; check_limits flags the
session exhausted exactly when one of the six checked counters
(queries, pages, evidence_tokens, ai_overviews, pdf, google_ads) has
reached its ceiling, and ignores the seconds counter entirely; and
can_afford_tool gates only the queries and pages resources: tools whose
declared cost touches any other resource (pdf, google_ads, ai_overview,
extract_links, search_linkedin_posts) are admitted whenever the
remaining queries and pages are nonnegative, regardless of their own
budgets; the serp cost comparison raises a TypeError because its
registry cost is a literal string; a crawl of n urls is admitted iff n
pages remain and the remaining queries are nonnegative. -/
theorem budget_gating_amended :
    (∀ u d : Usage, 0 ≤ d.queries → 0 ≤ d.pages → 0 ≤ d.seconds →
      0 ≤ d.evidence_tokens → 0 ≤ d.ai_overviews → 0 ≤ d.pdf →
      0 ≤ d.google_ads →
      u.queries ≤ (incUsage u d).queries ∧ u.pages ≤ (incUsage u d).pages ∧
      u.seconds ≤ (incUsage u d).seconds ∧
      u.evidence_tokens ≤ (incUsage u d).evidence_tokens ∧
      u.ai_overviews ≤ (incUsage u d).ai_overviews ∧
      u.pdf ≤ (incUsage u d).pdf ∧
      u.google_ads ≤ (incUsage u d).google_ads) ∧
    (∀ b u, check_limits b u = true ↔
      (b.queries ≤ u.queries ∨ b.pages ≤ u.pages ∨
       b.evidence_tokens ≤ u.evidence_tokens ∨
       b.ai_overviews ≤ u.ai_overviews ∨ b.pdf ≤ u.pdf ∨
       b.google_ads ≤ u.google_ads)) ∧
    (∀ b u s, check_limits b { u with seconds := s } = check_limits b u) ∧
    (∀ d n, ∀ name ∈ ["pdf", "google_ads", "ai_overview", "extract_links",
        "search_linkedin_posts"],
      can_afford_tool d name n =
        .ok (decide (0 ≤ dictGet d "queries" 0) &&
             decide (0 ≤ dictGet d "pages" 0))) ∧
    (∀ d n, can_afford_tool d "serp" n = .error "TypeError") ∧
    (∀ d n, can_afford_tool d "crawl" n =
      .ok (decide (0 ≤ dictGet d "queries" 0) &&
           decide ((n : ℤ) ≤ dictGet d "pages" 0))) := by
  refine ⟨?_, ?_, ?_, ?_, ?_, ?_⟩
  · intro u d h1 h2 h3 h4 h5 h6 h7
    refine ⟨?_, ?_, ?_, ?_, ?_, ?_, ?_⟩ <;> simp [incUsage] <;> omega
  · intro b u
    simp [check_limits, or_assoc]
  · intro b u s
    rfl
  · intro d n name hname
    have key : ∀ gate : Except String Bool,
        gate = (if dictGet d "queries" 0 < 0 then Except.ok false
          else .ok (decide (0 ≤ dictGet d "pages" 0))) →
        gate = .ok (decide (0 ≤ dictGet d "queries" 0) &&
          decide (0 ≤ dictGet d "pages" 0)) := by
      intro gate hg
      rcases lt_or_le (dictGet d "queries" 0) 0 with hq | hq
      · rw [hg, if_pos hq]
        simp [not_le.mpr hq]
      · rw [hg, if_neg (not_lt.mpr hq)]
        simp [hq]
    fin_cases hname <;>
      exact key _ rfl
  · intro d n
    rfl
  · intro d n
    rcases lt_or_le (dictGet d "queries" 0) 0 with hq | hq
    · show (if dictGet d "queries" 0 < 0 then Except.ok false
        else .ok (decide ((n : ℤ) ≤ dictGet d "pages" 0))) = _
      rw [if_pos hq]
      simp [not_le.mpr hq]
    · show (if dictGet d "queries" 0 < 0 then Except.ok false
        else .ok (decide ((n : ℤ) ≤ dictGet d "pages" 0))) = _
      rw [if_neg (not_lt.mpr hq)]
      simp [hq]

theorem budget_gating_amended_witness :
    (⟨0, 0, 0, 0, 0, 0, 0⟩ : Usage).queries ≤
      (incUsage ⟨0, 0, 0, 0, 0, 0, 0⟩ ⟨1, 1, 1, 1, 1, 1, 1⟩).queries ∧
    check_limits ⟨1, 1, 1, 1, 1, 1, 1⟩ ⟨1, 0, 0, 0, 0, 0, 0⟩ = true :=
  ⟨(budget_gating_amended.1 ⟨0, 0, 0, 0, 0, 0, 0⟩ ⟨1, 1, 1, 1, 1, 1, 1⟩
      (by norm_num) (by norm_num) (by norm_num) (by norm_num) (by norm_num)
      (by norm_num) (by norm_num)).1,
   (budget_gating_amended.2.1 ⟨1, 1, 1, 1, 1, 1, 1⟩
      ⟨1, 0, 0, 0, 0, 0, 0⟩).mpr (Or.inl (by norm_num))⟩

/-- With the head rewrite below, headWs is the whitespace test of the
optional head character. -/
theorem headWs_eq (l : Str) : headWs l = headCharWs l.head? := by
  cases l <;> rfl

theorem headWs_dropWhile (l : Str) : headWs (l.dropWhile isPySpace) = false := by
  induction l with
  | nil => rfl
  | cons c t ih =>
    by_cases h : isPySpace c = true
    · rw [List.dropWhile_cons, if_pos h]
      exact ih
    · rw [List.dropWhile_cons, if_neg h]
      simpa [headWs] using h

theorem dropWhile_ws_idem (l : Str) :
    (l.dropWhile isPySpace).dropWhile isPySpace = l.dropWhile isPySpace := by
  cases h : l.dropWhile isPySpace with
  | nil => rfl
  | cons c t =>
    have hws := headWs_dropWhile l
    rw [h] at hws
    simp only [headWs] at hws
    rw [List.dropWhile_cons, if_neg (by simp [hws])]

theorem getLast?_of_suffix {l₁ l₂ : Str} (h : l₁ <:+ l₂) (hne : l₁ ≠ []) :
    l₂.getLast? = l₁.getLast? := by
  obtain ⟨pre, rfl⟩ := h
  rw [List.getLast?_append]
  cases hl : l₁.getLast? with
  | none => exact absurd (List.getLast?_eq_none_iff.mp hl) hne
  | some c => rfl

theorem pyStrip_head_ws (s : Str) : headWs (pyStrip s) = false := by
  unfold pyStrip
  cases hz : (s.dropWhile isPySpace).reverse.dropWhile isPySpace with
  | nil => rfl
  | cons z t =>
    rw [headWs_eq, List.head?_reverse]
    have h1 : ((s.dropWhile isPySpace).reverse.dropWhile isPySpace).getLast? =
        (s.dropWhile isPySpace).reverse.getLast? :=
      (getLast?_of_suffix (List.dropWhile_suffix _) (by simp [hz])).symm
    rw [← hz, h1, List.getLast?_reverse, ← headWs_eq]
    exact headWs_dropWhile s

theorem pyStrip_last_ws (s : Str) : lastWs (pyStrip s) = false := by
  unfold lastWs pyStrip
  rw [List.reverse_reverse]
  exact headWs_dropWhile _

theorem pyStrip_eq_self (s : Str) (h1 : headWs s = false) (h2 : lastWs s = false) :
    pyStrip s = s := by
  have hd : s.dropWhile isPySpace = s := by
    cases s with
    | nil => rfl
    | cons c t =>
      simp only [headWs] at h1
      rw [List.dropWhile_cons, if_neg (by simp [h1])]
  unfold pyStrip
  rw [hd]
  have hd2 : s.reverse.dropWhile isPySpace = s.reverse := by
    unfold lastWs at h2
    cases hr : s.reverse with
    | nil => rfl
    | cons c t =>
      rw [hr] at h2
      simp only [headWs] at h2
      rw [List.dropWhile_cons, if_neg (by simp [h2])]
  rw [hd2, List.reverse_reverse]

theorem pyStrip_idem (s : Str) : pyStrip (pyStrip s) = pyStrip s :=
  pyStrip_eq_self _ (pyStrip_head_ws s) (pyStrip_last_ws s)

theorem pyStrip_eq_nil_iff (s : Str) :
    pyStrip s = [] ↔ ∀ c ∈ s, isPySpace c = true := by
  constructor
  · intro h c hc
    unfold pyStrip at h
    rw [List.reverse_eq_nil_iff, List.dropWhile_eq_nil_iff] at h
    have hsplit := List.takeWhile_append_dropWhile isPySpace s
    rw [← hsplit] at hc
    rcases List.mem_append.mp hc with hc1 | hc2
    · exact List.mem_takeWhile_imp hc1
    · exact h c (List.mem_reverse.mpr hc2)
  · intro h
    unfold pyStrip
    rw [List.dropWhile_eq_nil_iff.mpr h]
    rfl

theorem pyStrip_within (s : Str) : pyStrip s <:+: s := by
  have h1 : s.dropWhile isPySpace <:+ s := List.dropWhile_suffix _
  have h2 : (s.dropWhile isPySpace).reverse.dropWhile isPySpace <:+
      (s.dropWhile isPySpace).reverse := List.dropWhile_suffix _
  have h3 : pyStrip s <+: s.dropWhile isPySpace := by
    unfold pyStrip
    have := List.reverse_prefix.mpr h2
    rwa [List.reverse_reverse] at this
  exact h3.isInfix.trans h1.isInfix

theorem hasNN_iff (s : Str) : hasNN s = true ↔ ['\n', '\n'] <:+: s := by
  induction s with
  | nil =>
    simp [hasNN]
  | cons c t ih =>
    cases t with
    | nil =>
      constructor
      · intro h
        exact absurd h (by simp [hasNN])
      · intro h
        have := h.length_le
        simp at this
    | cons d r =>
      rw [show hasNN (c :: d :: r) = ((c = '\n' && d = '\n') || hasNN (d :: r)) from rfl]
      rw [List.infix_cons_iff, List.cons_prefix_cons]
      constructor
      · intro h
        rcases Bool.or_eq_true _ _ |>.mp h with h1 | h2
        · rw [Bool.and_eq_true, decide_eq_true_eq, decide_eq_true_eq] at h1
          refine Or.inl ⟨h1.1.symm, ?_⟩
          rw [List.cons_prefix_cons]
          exact ⟨h1.2.symm, List.nil_prefix⟩
        · exact Or.inr (ih.mp h2)
      · intro h
        rcases h with ⟨hc, hp⟩ | h2
        · rw [List.cons_prefix_cons] at hp
          apply Bool.or_eq_true _ _ |>.mpr
          exact Or.inl (by simp [hc.symm, hp.1.symm])
        · exact Bool.or_eq_true _ _ |>.mpr (Or.inr (ih.mpr h2))

theorem hasNN_false_of_infix {l₁ l₂ : Str} (h : l₁ <:+: l₂)
    (h2 : hasNN l₂ = false) : hasNN l₁ = false := by
  cases hb : hasNN l₁ with
  | false => rfl
  | true =>
    have : hasNN l₂ = true := (hasNN_iff l₂).mpr (((hasNN_iff l₁).mp hb).trans h)
    rw [this] at h2
    simp at h2

theorem hasNN_append_single (xs : Str) (c : Char) :
    hasNN (xs ++ [c]) =
      (hasNN xs || (xs.getLast? == some '\n' && c == '\n')) := by
  induction xs with
  | nil => simp [hasNN]
  | cons x xs' ih =>
    cases xs' with
    | nil =>
      show hasNN [x, c] = _
      rw [show hasNN [x, c] = ((x = '\n' && c = '\n') || hasNN [c]) from rfl]
      simp [hasNN, Bool.beq_eq_decide_eq]
    | cons y xs'' =>
      rw [show (x :: y :: xs'') ++ [c] = x :: ((y :: xs'') ++ [c]) from rfl]
      rw [show (y :: xs'') ++ [c] = y :: (xs'' ++ [c]) from rfl]
      rw [show hasNN (x :: y :: (xs'' ++ [c])) =
        ((x = '\n' && y = '\n') || hasNN (y :: (xs'' ++ [c]))) from rfl]
      rw [show y :: (xs'' ++ [c]) = (y :: xs'') ++ [c] from rfl, ih]
      rw [show hasNN (x :: y :: xs'') = ((x = '\n' && y = '\n') || hasNN (y :: xs'')) from rfl]
      rw [List.getLast?_cons_cons]
      rw [Bool.or_assoc]

theorem parSplitAux_nil (acc : Str) : parSplitAux [] acc = [acc.reverse] := rfl

theorem parSplitAux_one (c : Char) (acc : Str) :
    parSplitAux [c] acc = [(c :: acc).reverse] := rfl

theorem parSplitAux_cons2 (c d : Char) (rest acc : Str) :
    parSplitAux (c :: d :: rest) acc =
      if (c = '\n' && d = '\n') = true then acc.reverse :: parSplitAux rest []
      else parSplitAux (d :: rest) (c :: acc) := rfl

theorem parSplitAux_no_sep (p : Str) (h : hasNN p = false) :
    ∀ acc, parSplitAux p acc = [acc.reverse ++ p] := by
  induction p with
  | nil => intro acc; simp [parSplitAux_nil]
  | cons c p' ih =>
    intro acc
    cases p' with
    | nil => simp [parSplitAux_one]
    | cons d p'' =>
      rw [show hasNN (c :: d :: p'') =
        ((c = '\n' && d = '\n') || hasNN (d :: p'')) from rfl] at h
      obtain ⟨hcd, ht⟩ := Bool.or_eq_false_iff.mp h
      rw [parSplitAux_cons2, if_neg (by simp [hcd]), ih ht (c :: acc)]
      simp

theorem parSplitAux_sep (p : Str) (h1 : hasNN p = false) (h2 : endsNL p = false) :
    ∀ rest acc, parSplitAux (p ++ '\n' :: '\n' :: rest) acc =
      (acc.reverse ++ p) :: parSplitAux rest [] := by
  induction p with
  | nil =>
    intro rest acc
    rw [List.nil_append, parSplitAux_cons2, if_pos (by simp)]
    simp
  | cons c p' ih =>
    intro rest acc
    cases p' with
    | nil =>
      have hc : ¬ (c = '\n') := by
        unfold endsNL at h2
        rw [show ([c] : Str).getLast? = some c from rfl] at h2
        simpa using h2
      rw [show ([c] : Str) ++ '\n' :: '\n' :: rest = c :: '\n' :: ('\n' :: rest) from rfl]
      rw [parSplitAux_cons2, if_neg (by simp [hc])]
      rw [parSplitAux_cons2, if_pos (by simp)]
      simp
    | cons d p'' =>
      rw [show hasNN (c :: d :: p'') =
        ((c = '\n' && d = '\n') || hasNN (d :: p'')) from rfl] at h1
      obtain ⟨hcd, ht⟩ := Bool.or_eq_false_iff.mp h1
      have h2' : endsNL (d :: p'') = false := by
        unfold endsNL at h2 ⊢
        rwa [List.getLast?_cons_cons] at h2
      rw [show (c :: d :: p'') ++ '\n' :: '\n' :: rest =
        c :: d :: (p'' ++ '\n' :: '\n' :: rest) from rfl]
      rw [parSplitAux_cons2, if_neg (by simp [hcd])]
      rw [show (d :: (p'' ++ '\n' :: '\n' :: rest) : Str) =
        (d :: p'') ++ '\n' :: '\n' :: rest from rfl]
      rw [ih ht h2' rest (c :: acc)]
      simp

theorem parSplit_joinPar (ps : List Str) (hne : ps ≠ [])
    (h : ∀ p ∈ ps, hasNN p = false ∧ endsNL p = false) :
    parSplit (joinPar ps) = ps := by
  induction ps with
  | nil => exact absurd rfl hne
  | cons p ps' ih =>
    cases ps' with
    | nil =>
      rw [show joinPar [p] = p from rfl, parSplit,
        parSplitAux_no_sep p (h p (by simp)).1]
      simp
    | cons q ps'' =>
      rw [show joinPar (p :: q :: ps'') = p ++ '\n' :: '\n' :: joinPar (q :: ps'')
        from rfl]
      rw [parSplit, parSplitAux_sep p (h p (by simp)).1 (h p (by simp)).2]
      have : parSplitAux (joinPar (q :: ps'')) [] = parSplit (joinPar (q :: ps'')) := rfl
      rw [this, ih (by simp) (fun r hr => h r (List.mem_cons_of_mem p hr))]
      simp

theorem parSplitAux_pieces_nn (n : ℕ) : ∀ s : Str, s.length ≤ n → ∀ acc : Str,
    hasNN acc.reverse = false →
    (acc.head? = some '\n' → s.head? ≠ some '\n') →
    ∀ piece ∈ parSplitAux s acc, hasNN piece = false := by
  induction n with
  | zero =>
    intro s hs acc hacc _ piece hp
    have : s = [] := List.length_eq_zero.mp (Nat.le_zero.mp hs)
    subst this
    rw [parSplitAux_nil] at hp
    simp at hp
    rw [hp]
    exact hacc
  | succ n ihn =>
    intro s hs acc hacc hbd piece hp
    match s, hs, hbd, hp with
    | [], _, _, hp =>
      rw [parSplitAux_nil] at hp
      simp at hp
      rw [hp]
      exact hacc
    | [c], _, hbd, hp =>
      rw [parSplitAux_one] at hp
      simp only [List.mem_singleton] at hp
      rw [hp, List.reverse_cons, hasNN_append_single, hacc, Bool.false_or,
        List.getLast?_reverse]
      cases hh : acc.head? with
      | none => simp
      | some a =>
        by_cases ha : a = '\n'
        · subst ha
          have := hbd hh
          have hc : ¬ c = '\n' := by
            intro hcc
            exact this (by subst hcc; rfl)
          simp [hc]
        · simp [ha]
    | c :: d :: rest, hs, hbd, hp =>
      by_cases hcd : (c = '\n' && d = '\n') = true
      · rw [parSplitAux_cons2, if_pos hcd] at hp
        rcases List.mem_cons.mp hp with hpe | hpm
        · rw [hpe]; exact hacc
        · refine ihn rest ?_ [] rfl (by simp) piece hpm
          simp at hs
          omega
      · rw [parSplitAux_cons2, if_neg hcd] at hp
        refine ihn (d :: rest) ?_ (c :: acc) ?_ ?_ piece hp
        · simp at hs ⊢
          omega
        · rw [List.reverse_cons, hasNN_append_single, hacc, Bool.false_or,
            List.getLast?_reverse]
          cases hh : acc.head? with
          | none => simp
          | some a =>
            by_cases ha : a = '\n'
            · subst ha
              have := hbd hh
              have hc : ¬ c = '\n' := by
                intro hcc
                exact this (by subst hcc; rfl)
              simp [hc]
            · simp [ha]
        · intro hch
          simp only [List.head?_cons, Option.some.injEq] at hch
          intro hdh
          simp only [List.head?_cons, Option.some.injEq] at hdh
          rw [hch, hdh] at hcd
          simp at hcd

theorem parSplit_pieces_nn (s piece : Str) (h : piece ∈ parSplit s) :
    hasNN piece = false :=
  parSplitAux_pieces_nn s.length s le_rfl [] rfl (by simp) piece h

theorem endsNL_false_of_lastWs (p : Str) (h : lastWs p = false) :
    endsNL p = false := by
  unfold endsNL
  cases hl : p.getLast? with
  | none => rfl
  | some c =>
    have hws : isPySpace c = false := by
      have h2 : lastWs p = headCharWs p.getLast? := by
        unfold lastWs
        rw [headWs_eq, List.head?_reverse]
      rw [h2, hl] at h
      exact h
    have hc : ¬ c = '\n' := by
      intro hcc
      rw [hcc] at hws
      exact absurd hws (by decide)
    simp [hc]

theorem paragraphsOf_good (content p : Str) (hp : p ∈ paragraphsOf content) :
    goodPara p := by
  unfold paragraphsOf at hp
  rw [List.mem_filter] at hp
  obtain ⟨hmem, hne⟩ := hp
  rw [List.mem_map] at hmem
  obtain ⟨piece, hpc, rfl⟩ := hmem
  refine ⟨by simpa using hne, pyStrip_idem piece, ?_, ?_⟩
  · exact hasNN_false_of_infix (pyStrip_within piece)
      (parSplit_pieces_nn content piece hpc)
  · exact endsNL_false_of_lastWs _ (pyStrip_last_ws piece)

theorem paragraphsOf_joinPar (ps : List Str) (hne : ps ≠ [])
    (h : ∀ p ∈ ps, goodPara p) :
    paragraphsOf (joinPar ps) = ps := by
  unfold paragraphsOf
  rw [parSplit_joinPar ps hne (fun p hp => ⟨(h p hp).2.2.1, (h p hp).2.2.2⟩)]
  have hmap : ps.map pyStrip = ps := by
    have : ps.map pyStrip = ps.map id := List.map_congr_left (fun p hp => (h p hp).2.1)
    rw [this, List.map_id]
  rw [hmap]
  exact List.filter_eq_self.mpr (fun p hp => by simpa using (h p hp).1)

theorem joinPar_ne_nil (ps : List Str) (hne : ps ≠ [])
    (h : ∀ p ∈ ps, p ≠ []) : joinPar ps ≠ [] := by
  cases ps with
  | nil => exact absurd rfl hne
  | cons p ps' =>
    cases ps' with
    | nil => exact h p (by simp)
    | cons q ps'' =>
      rw [show joinPar (p :: q :: ps'') = p ++ '\n' :: '\n' :: joinPar (q :: ps'')
        from rfl]
      simp

theorem pyStrip_joinPar_ne_nil (ps : List Str) (hne : ps ≠ [])
    (h : ∀ p ∈ ps, goodPara p) : pyStrip (joinPar ps) ≠ [] := by
  intro hcontra
  rw [pyStrip_eq_nil_iff] at hcontra
  cases ps with
  | nil => exact absurd rfl hne
  | cons p ps' =>
    have hgood := h p (by simp)
    obtain ⟨hpne, hstr, _, _⟩ := hgood
    cases hpz : p with
    | nil => exact absurd hpz hpne
    | cons c rest =>
      have hcws : isPySpace c = false := by
        have hh : headWs p = false := by
          rw [← hstr]
          exact pyStrip_head_ws p
        rw [hpz] at hh
        simpa [headWs] using hh
      have hcmem : c ∈ joinPar (p :: ps') := by
        cases ps' with
        | nil =>
          rw [show joinPar [p] = p from rfl, hpz]
          simp
        | cons q ps'' =>
          rw [show joinPar (p :: q :: ps'') = p ++ '\n' :: '\n' :: joinPar (q :: ps'')
            from rfl, hpz]
          simp
      rw [hcontra c hcmem] at hcws
      exact absurd hcws (by simp)

set_option maxRecDepth 100000 in
/-- C4 counterexample: with the default threshold 0.85 and minimum length
50, one application of deduplicate_paragraphs on the three-paragraph
input keeps paragraphs two and three (the longer second paragraph
replaces the first, but the stored fingerprint stays the first one's),
while a second application also drops the third paragraph, which is
near the second's own fingerprint though not the stored stale one — so
the function is not idempotent. -/
theorem dedupe_idempotence_counterexample :
    deduplicate_paragraphs cexHash (17 / 20) 50
        (deduplicate_paragraphs cexHash (17 / 20) 50 cexContent) ≠
      deduplicate_paragraphs cexHash (17 / 20) 50 cexContent := by
  with_unfolding_all decide

theorem dedupStep_repl_mono (f : Str → ℕ) (t : ℚ) (minLen : ℕ) (st : DState)
    (p : Str) (h : st.repl = true) : (dedupStep f t minLen st p).repl = true := by
  by_cases hs : p.length < minLen
  · simpa [dedupStep, hs] using h
  · cases hf : st.seen.find? (fun e => simBool t e.1 (fingerprint f p)) with
    | none => simpa [dedupStep, hs, hf] using h
    | some e =>
      by_cases hl : e.2.length < p.length
      · by_cases hc : e.2 ∈ st.out <;> simp [dedupStep, hs, hf, hl, hc]
      · simpa [dedupStep, hs, hf, hl] using h

theorem foldl_dedupStep_repl_mono (f : Str → ℕ) (t : ℚ) (minLen : ℕ)
    (ps : List Str) : ∀ st : DState, st.repl = true →
    (ps.foldl (dedupStep f t minLen) st).repl = true := by
  induction ps with
  | nil => intro st h; exact h
  | cons p ps ih =>
    intro st h
    exact ih _ (dedupStep_repl_mono f t minLen st p h)

theorem replaceFirstOut_mem (xs : List Str) (q p o : Str)
    (h : o ∈ replaceFirstOut xs q p) : o ∈ xs ∨ o = p := by
  induction xs with
  | nil => simp [replaceFirstOut] at h
  | cons x xs ih =>
    rw [replaceFirstOut] at h
    by_cases hx : x = q
    · rw [if_pos hx] at h
      rcases List.mem_cons.mp h with h1 | h2
      · exact Or.inr h1
      · exact Or.inl (List.mem_cons_of_mem _ h2)
    · rw [if_neg hx] at h
      rcases List.mem_cons.mp h with h1 | h2
      · exact Or.inl (h1 ▸ List.mem_cons_self _ _)
      · rcases ih h2 with h3 | h4
        · exact Or.inl (List.mem_cons_of_mem _ h3)
        · exact Or.inr h4

theorem replaceFirstOut_length (xs : List Str) (q p : Str) :
    (replaceFirstOut xs q p).length = xs.length := by
  induction xs with
  | nil => rfl
  | cons x xs ih =>
    rw [replaceFirstOut]
    by_cases hx : x = q
    · rw [if_pos hx]
      simp
    · rw [if_neg hx]
      simpa using ih

theorem dedupStep_out_mem (f : Str → ℕ) (t : ℚ) (minLen : ℕ) (st : DState)
    (p o : Str) (h : o ∈ (dedupStep f t minLen st p).out) :
    o ∈ st.out ∨ o = p := by
  by_cases hs : p.length < minLen
  · simp [dedupStep, hs] at h
    tauto
  · cases hf : st.seen.find? (fun e => simBool t e.1 (fingerprint f p)) with
    | none =>
      simp [dedupStep, hs, hf] at h
      tauto
    | some e =>
      by_cases hl : e.2.length < p.length
      · by_cases hc : e.2 ∈ st.out
        · simp [dedupStep, hs, hf, hl, hc] at h
          exact replaceFirstOut_mem st.out e.2 p o h
        · simp [dedupStep, hs, hf, hl, hc] at h
          exact Or.inl h
      · simp [dedupStep, hs, hf, hl] at h
        exact Or.inl h

theorem foldl_dedupStep_out_mem (f : Str → ℕ) (t : ℚ) (minLen : ℕ)
    (ps : List Str) : ∀ st : DState, ∀ o ∈ (ps.foldl (dedupStep f t minLen) st).out,
    o ∈ st.out ∨ o ∈ ps := by
  induction ps with
  | nil => intro st o h; exact Or.inl h
  | cons p ps ih =>
    intro st o h
    rw [List.foldl_cons] at h
    rcases ih _ o h with h1 | h2
    · rcases dedupStep_out_mem f t minLen st p o h1 with h3 | h4
      · exact Or.inl h3
      · exact Or.inr (h4 ▸ List.mem_cons_self _ _)
    · exact Or.inr (List.mem_cons_of_mem _ h2)

theorem dedupStep_out_length (f : Str → ℕ) (t : ℚ) (minLen : ℕ) (st : DState)
    (p : Str) : st.out.length ≤ (dedupStep f t minLen st p).out.length := by
  by_cases hs : p.length < minLen
  · simp [dedupStep, hs]
  · cases hf : st.seen.find? (fun e => simBool t e.1 (fingerprint f p)) with
    | none => simp [dedupStep, hs, hf]
    | some e =>
      by_cases hl : e.2.length < p.length
      · by_cases hc : e.2 ∈ st.out
        · simp [dedupStep, hs, hf, hl, hc, replaceFirstOut_length]
        · simp [dedupStep, hs, hf, hl, hc]
      · simp [dedupStep, hs, hf, hl]

theorem foldl_dedupStep_out_length (f : Str → ℕ) (t : ℚ) (minLen : ℕ)
    (ps : List Str) : ∀ st : DState,
    st.out.length ≤ (ps.foldl (dedupStep f t minLen) st).out.length := by
  induction ps with
  | nil => intro st; exact le_rfl
  | cons p ps ih =>
    intro st
    exact (dedupStep_out_length f t minLen st p).trans (ih _)

theorem dedupRun_out_ne_nil (f : Str → ℕ) (t : ℚ) (minLen : ℕ) (p : Str)
    (ps : List Str) : (dedupRun f t minLen (p :: ps)).out ≠ [] := by
  have h1 : (dedupStep f t minLen ⟨[], [], false⟩ p).out = [p] := by
    by_cases hs : p.length < minLen
    · simp [dedupStep, hs]
    · simp [dedupStep, hs]
  have h2 := foldl_dedupStep_out_length f t minLen ps
    (dedupStep f t minLen ⟨[], [], false⟩ p)
  rw [h1] at h2
  simp only [List.length_singleton] at h2
  rw [dedupRun, List.foldl_cons]
  intro hcon
  rw [hcon] at h2
  simp at h2

theorem dedup_no_repl_invariant (f : Str → ℕ) (t : ℚ) (minLen : ℕ)
    (ps : List Str) : ∀ st : DState,
    (ps.foldl (dedupStep f t minLen) st).repl = false →
    st.seen = seenOf f minLen st.out →
    List.Pairwise (NoSim f t minLen) st.out →
    List.Pairwise (NoSim f t minLen) (ps.foldl (dedupStep f t minLen) st).out := by
  induction ps with
  | nil => intro st _ _ hpw; exact hpw
  | cons p ps ih =>
    intro st hrepl hseen hpw
    rw [List.foldl_cons] at hrepl ⊢
    have hstep : (dedupStep f t minLen st p).repl = false := by
      cases hb : (dedupStep f t minLen st p).repl with
      | false => rfl
      | true =>
        rw [foldl_dedupStep_repl_mono f t minLen ps _ hb] at hrepl
        cases hrepl
    by_cases hs : p.length < minLen
    · have hstate : dedupStep f t minLen st p = { st with out := st.out ++ [p] } := by
        simp [dedupStep, hs]
      rw [hstate] at hrepl ⊢
      refine ih _ hrepl ?_ ?_
      · rw [hseen]
        unfold seenOf
        rw [List.filter_append]
        simp [show ¬ (minLen ≤ p.length) from by omega]
      · rw [List.pairwise_append]
        refine ⟨hpw, List.pairwise_singleton _ _, ?_⟩
        intro a _ b hb
        simp only [List.mem_singleton] at hb
        subst hb
        intro _ hlb
        exact absurd hlb (by unfold longPara; omega)
    · cases hf : st.seen.find? (fun e => simBool t e.1 (fingerprint f p)) with
      | none =>
        have hstate : dedupStep f t minLen st p =
            ⟨st.seen ++ [(fingerprint f p, p)], st.out ++ [p], st.repl⟩ := by
          simp [dedupStep, hs, hf]
        rw [hstate] at hrepl ⊢
        refine ih _ hrepl ?_ ?_
        · rw [hseen]
          unfold seenOf
          rw [List.filter_append, List.map_append]
          simp [show minLen ≤ p.length from by omega]
        · rw [List.pairwise_append]
          refine ⟨hpw, List.pairwise_singleton _ _, ?_⟩
          intro q hq b hb
          simp only [List.mem_singleton] at hb
          subst hb
          intro hlq _
          have hmem : (fingerprint f q, q) ∈ st.seen := by
            rw [hseen]
            unfold seenOf
            exact List.mem_map.mpr ⟨q,
              List.mem_filter.mpr ⟨hq, by simpa [longPara] using hlq⟩, rfl⟩
          have := List.find?_eq_none.mp hf _ hmem
          simpa using this
      | some e =>
        by_cases hl : e.2.length < p.length
        · exfalso
          have hT : (dedupStep f t minLen st p).repl = true := by
            by_cases hc : e.2 ∈ st.out <;> simp [dedupStep, hs, hf, hl, hc]
          rw [hT] at hstep
          cases hstep
        · have hstate : dedupStep f t minLen st p = st := by
            simp [dedupStep, hs, hf, hl]
          rw [hstate] at hrepl ⊢
          exact ih st hrepl hseen hpw

theorem dedup_run_of_pairwise (f : Str → ℕ) (t : ℚ) (minLen : ℕ)
    (qs : List Str) : ∀ pre : List Str,
    List.Pairwise (NoSim f t minLen) (pre ++ qs) →
    qs.foldl (dedupStep f t minLen) ⟨seenOf f minLen pre, pre, false⟩ =
      ⟨seenOf f minLen (pre ++ qs), pre ++ qs, false⟩ := by
  induction qs with
  | nil => intro pre _; simp
  | cons q qs ih =>
    intro pre hpw
    rw [List.foldl_cons]
    have hstep : dedupStep f t minLen ⟨seenOf f minLen pre, pre, false⟩ q =
        ⟨seenOf f minLen (pre ++ [q]), pre ++ [q], false⟩ := by
      by_cases hs : q.length < minLen
      · simp [dedupStep, hs, seenOf, List.filter_append,
          show ¬ (minLen ≤ q.length) from by omega]
      · have hfind : (seenOf f minLen pre).find?
            (fun e => simBool t e.1 (fingerprint f q)) = none := by
          rw [List.find?_eq_none]
          intro e he
          unfold seenOf at he
          rw [List.mem_map] at he
          obtain ⟨r, hr, rfl⟩ := he
          rw [List.mem_filter] at hr
          have hcross : NoSim f t minLen r q := by
            rw [List.pairwise_append] at hpw
            exact hpw.2.2 r hr.1 q (by simp)
          have := hcross (by simpa [longPara] using hr.2)
            (by unfold longPara; omega)
          simp [this]
        have hseenApp : seenOf f minLen pre ++ [(fingerprint f q, q)] =
            seenOf f minLen (pre ++ [q]) := by
          unfold seenOf
          rw [List.filter_append, List.map_append]
          simp [show minLen ≤ q.length from by omega]
        rw [← hseenApp]
        generalize seenOf f minLen pre = S at hfind ⊢
        simp [dedupStep, hs, hfind]
    rw [hstep]
    have hpw2 : List.Pairwise (NoSim f t minLen) ((pre ++ [q]) ++ qs) := by
      rwa [List.append_assoc, List.singleton_append]
    have h2 := ih (pre ++ [q]) hpw2
    rwa [List.append_assoc, List.singleton_append] at h2

/-- When the input is a joined list of good paragraphs with at least two
entries, deduplicate_paragraphs reduces to joining the loop output. -/
theorem dedupe_joinPar_run (f : Str → ℕ) (t : ℚ) (minLen : ℕ) (ps : List Str)
    (hne : ps ≠ []) (hgood : ∀ p ∈ ps, goodPara p) (hlen : 1 < ps.length) :
    deduplicate_paragraphs f t minLen (joinPar ps) =
      joinPar (dedupRun f t minLen ps).out := by
  have h1 : joinPar ps ≠ [] := joinPar_ne_nil ps hne (fun p hp => (hgood p hp).1)
  have h2 : pyStrip (joinPar ps) ≠ [] := pyStrip_joinPar_ne_nil ps hne hgood
  have hcond : ((joinPar ps).isEmpty || (pyStrip (joinPar ps)).isEmpty) = false := by
    simp [List.isEmpty_iff, h1, h2]
  have hparas : paragraphsOf (joinPar ps) = ps := paragraphsOf_joinPar ps hne hgood
  unfold deduplicate_paragraphs
  rw [hcond]
  simp only [Bool.false_eq_true, if_false, hparas]
  rw [if_neg (by omega)]

/-- C4 amended: deduplicate_paragraphs is idempotent on every input on
which its first pass performs no longer-duplicate replacement (the repl
flag of the instrumented run is false); in general idempotence fails
because a replacement keeps the replaced paragraph's old fingerprint,
as the counterexample shows. -/
theorem dedupe_idempotent_without_replacement (f : Str → ℕ) (t : ℚ)
    (minLen : ℕ) (content : Str)
    (hrepl : (dedupRun f t minLen (paragraphsOf content)).repl = false) :
    deduplicate_paragraphs f t minLen (deduplicate_paragraphs f t minLen content) =
      deduplicate_paragraphs f t minLen content := by
  by_cases hempty : (content.isEmpty || (pyStrip content).isEmpty) = true
  · have h0 : deduplicate_paragraphs f t minLen content = [] := by
      unfold deduplicate_paragraphs
      rw [hempty]
      rfl
    rw [h0]
    rfl
  · by_cases hone : (paragraphsOf content).length ≤ 1
    · have hcc : deduplicate_paragraphs f t minLen content = content := by
        unfold deduplicate_paragraphs
        rw [eq_false_of_ne_true hempty]
        simp only [Bool.false_eq_true, if_false]
        rw [if_pos hone]
      rw [hcc]
      exact hcc
    · have hres : deduplicate_paragraphs f t minLen content =
          joinPar (dedupRun f t minLen (paragraphsOf content)).out := by
        unfold deduplicate_paragraphs
        rw [eq_false_of_ne_true hempty]
        simp only [Bool.false_eq_true, if_false]
        rw [if_neg hone]
      set ps := paragraphsOf content with hps
      set st := dedupRun f t minLen ps with hst
      have hpw : List.Pairwise (NoSim f t minLen) st.out := by
        refine dedup_no_repl_invariant f t minLen ps ⟨[], [], false⟩ hrepl rfl ?_
        exact List.Pairwise.nil
      have hsub : ∀ o ∈ st.out, o ∈ ps := by
        intro o ho
        rcases foldl_dedupStep_out_mem f t minLen ps ⟨[], [], false⟩ o ho with h1 | h2
        · simp at h1
        · exact h2
      have hgood : ∀ o ∈ st.out, goodPara o := fun o ho =>
        paragraphsOf_good content o (hsub o ho)
      have hnil : st.out ≠ [] := by
        obtain ⟨p, ps', hpq⟩ : ∃ p ps', ps = p :: ps' := by
          cases hq : ps with
          | nil =>
            rw [hq] at hone
            simp at hone
          | cons a b => exact ⟨a, b, rfl⟩
        rw [hst, hpq]
        exact dedupRun_out_ne_nil f t minLen p ps'
      rw [hres]
      by_cases hone2 : (paragraphsOf (joinPar st.out)).length ≤ 1
      · have h1 : joinPar st.out ≠ [] :=
          joinPar_ne_nil st.out hnil (fun p hp => (hgood p hp).1)
        have h2 : pyStrip (joinPar st.out) ≠ [] :=
          pyStrip_joinPar_ne_nil st.out hnil hgood
        unfold deduplicate_paragraphs
        rw [show ((joinPar st.out).isEmpty ||
            (pyStrip (joinPar st.out)).isEmpty) = false by
          simp [List.isEmpty_iff, h1, h2]]
        simp only [Bool.false_eq_true, if_false]
        rw [if_pos hone2]
      · have hparas2 : paragraphsOf (joinPar st.out) = st.out :=
          paragraphsOf_joinPar st.out hnil hgood
        rw [dedupe_joinPar_run f t minLen st.out hnil hgood
          (by rw [hparas2] at hone2; omega)]
        have hrun : dedupRun f t minLen st.out =
            ⟨seenOf f minLen st.out, st.out, false⟩ := by
          have := dedup_run_of_pairwise f t minLen st.out [] (by simpa using hpw)
          simpa [dedupRun] using this
        rw [hrun]

set_option maxRecDepth 100000 in
theorem dedupe_idempotent_without_replacement_witness :
    (dedupRun cexHash (17 / 20) 50
      (paragraphsOf (joinPar [List.replicate 50 'a', List.replicate 55 'c']))).repl
        = false ∧
    deduplicate_paragraphs cexHash (17 / 20) 50
        (deduplicate_paragraphs cexHash (17 / 20) 50
          (joinPar [List.replicate 50 'a', List.replicate 55 'c'])) =
      deduplicate_paragraphs cexHash (17 / 20) 50
        (joinPar [List.replicate 50 'a', List.replicate 55 'c']) :=
  ⟨by with_unfolding_all decide,
   dedupe_idempotent_without_replacement cexHash (17 / 20) 50 _
     (by with_unfolding_all decide)⟩

/-- C9: in intra-page deduplication the duplicate test is inclusive: a
pair whose fingerprint similarity equals the threshold exactly is
merged, keeping the longer paragraph (the first when lengths tie); a
pair whose similarity is one Hamming bit below the threshold is left
untouched; and a later longer duplicate replaces the earlier
paragraph's content in the earlier slot's position, ahead of unrelated
paragraphs that came between them. -/
theorem dedupe_threshold_boundary_longer_wins
    (f : Str → ℕ) (t : ℚ) (minLen : ℕ) (p q p2 q2 p3 r3 q3 : Str)
    (hp : goodPara p) (hq : goodPara q)
    (hlp : longPara minLen p) (hlq : longPara minLen q)
    (hsim : (1 : ℚ) - (hamming (fingerprint f p) (fingerprint f q) : ℚ) / 64 = t)
    (hp2 : goodPara p2) (hq2 : goodPara q2)
    (hlp2 : longPara minLen p2) (hlq2 : longPara minLen q2)
    (hsim2 : (1 : ℚ) - (hamming (fingerprint f p2) (fingerprint f q2) : ℚ) / 64 =
      t - 1 / 64)
    (hp3 : goodPara p3) (hr3 : goodPara r3) (hq3 : goodPara q3)
    (hlp3 : longPara minLen p3) (hlr3 : longPara minLen r3)
    (hlq3 : longPara minLen q3)
    (hsim3 : t ≤ (1 : ℚ) - (hamming (fingerprint f p3) (fingerprint f q3) : ℚ) / 64)
    (hdis3 : ¬ t ≤ (1 : ℚ) - (hamming (fingerprint f p3) (fingerprint f r3) : ℚ) / 64)
    (hlen3 : p3.length < q3.length) :
    deduplicate_paragraphs f t minLen (joinPar [p, q]) =
      (if p.length < q.length then q else p) ∧
    deduplicate_paragraphs f t minLen (joinPar [p2, q2]) = joinPar [p2, q2] ∧
    deduplicate_paragraphs f t minLen (joinPar [p3, r3, q3]) = joinPar [q3, r3] := by
  have hnshort : ∀ x : Str, longPara minLen x → ¬ x.length < minLen := by
    intro x hx
    unfold longPara at hx
    omega
  have step1 : ∀ x : Str, longPara minLen x →
      dedupStep f t minLen ⟨[], [], false⟩ x =
        ⟨[(fingerprint f x, x)], [x], false⟩ := by
    intro x hx
    simp [dedupStep, hnshort x hx]
  refine ⟨?_, ?_, ?_⟩
  · have hsimT : simBool t (fingerprint f p) (fingerprint f q) = true := by
      unfold simBool
      rw [hsim]
      exact decide_eq_true (le_refl t)
    rw [dedupe_joinPar_run f t minLen [p, q] (by simp)
      (by intro x hx; rcases List.mem_cons.mp hx with h | h
          · exact h ▸ hp
          · simp at h; exact h ▸ hq)
      (by simp)]
    rw [dedupRun, List.foldl_cons, step1 p hlp, List.foldl_cons, List.foldl_nil]
    by_cases hpq : p.length < q.length
    · rw [if_pos hpq]
      have : dedupStep f t minLen ⟨[(fingerprint f p, p)], [p], false⟩ q =
          ⟨replaceFirstSeen [(fingerprint f p, p)] p (fingerprint f p) q,
           replaceFirstOut [p] p q, true⟩ := by
        simp [dedupStep, hnshort q hlq, hsimT, hpq]
      rw [this]
      simp [replaceFirstOut]
      rfl
    · rw [if_neg hpq]
      have : dedupStep f t minLen ⟨[(fingerprint f p, p)], [p], false⟩ q =
          ⟨[(fingerprint f p, p)], [p], false⟩ := by
        simp [dedupStep, hnshort q hlq, hsimT, hpq]
      rw [this]
      rfl
  · have hsimF : simBool t (fingerprint f p2) (fingerprint f q2) = false := by
      unfold simBool
      rw [hsim2]
      simp only [decide_eq_false_iff_not]
      intro hcon
      linarith
    rw [dedupe_joinPar_run f t minLen [p2, q2] (by simp)
      (by intro x hx; rcases List.mem_cons.mp hx with h | h
          · exact h ▸ hp2
          · simp at h; exact h ▸ hq2)
      (by simp)]
    rw [dedupRun, List.foldl_cons, step1 p2 hlp2, List.foldl_cons, List.foldl_nil]
    have : dedupStep f t minLen ⟨[(fingerprint f p2, p2)], [p2], false⟩ q2 =
        ⟨[(fingerprint f p2, p2), (fingerprint f q2, q2)], [p2, q2], false⟩ := by
      simp [dedupStep, hnshort q2 hlq2, hsimF]
    rw [this]
  · have hsim3T : simBool t (fingerprint f p3) (fingerprint f q3) = true := by
      unfold simBool
      simpa using hsim3
    have hsim3F : simBool t (fingerprint f p3) (fingerprint f r3) = false := by
      unfold simBool
      simpa using hdis3
    rw [dedupe_joinPar_run f t minLen [p3, r3, q3] (by simp)
      (by intro x hx
          rcases List.mem_cons.mp hx with h | h
          · exact h ▸ hp3
          · rcases List.mem_cons.mp h with h2 | h2
            · exact h2 ▸ hr3
            · simp at h2; exact h2 ▸ hq3)
      (by simp)]
    rw [dedupRun, List.foldl_cons, step1 p3 hlp3, List.foldl_cons]
    have e2 : dedupStep f t minLen ⟨[(fingerprint f p3, p3)], [p3], false⟩ r3 =
        ⟨[(fingerprint f p3, p3), (fingerprint f r3, r3)], [p3, r3], false⟩ := by
      simp [dedupStep, hnshort r3 hlr3, hsim3F]
    rw [e2, List.foldl_cons, List.foldl_nil]
    have e3 : dedupStep f t minLen
        ⟨[(fingerprint f p3, p3), (fingerprint f r3, r3)], [p3, r3], false⟩ q3 =
        ⟨replaceFirstSeen [(fingerprint f p3, p3), (fingerprint f r3, r3)] p3
           (fingerprint f p3) q3,
         replaceFirstOut [p3, r3] p3 q3, true⟩ := by
      simp [dedupStep, hnshort q3 hlq3, hsim3T, hsim3F, hlen3]
    rw [e3]
    simp [replaceFirstOut]

set_option maxRecDepth 400000 in
theorem dedupe_threshold_boundary_longer_wins_witness :
    deduplicate_paragraphs bndHash (7 / 8) 50
        (joinPar [List.replicate 50 'a', List.replicate 50 'b']) =
      (if (List.replicate 50 'a').length < (List.replicate 50 'b').length
        then List.replicate 50 'b' else List.replicate 50 'a') ∧
    deduplicate_paragraphs bndHash (7 / 8) 50
        (joinPar [List.replicate 50 'c', List.replicate 50 'd']) =
      joinPar [List.replicate 50 'c', List.replicate 50 'd'] ∧
    deduplicate_paragraphs bndHash (7 / 8) 50
        (joinPar [List.replicate 50 'e', List.replicate 50 'f',
          List.replicate 60 'g']) =
      joinPar [List.replicate 60 'g', List.replicate 50 'f'] :=
  dedupe_threshold_boundary_longer_wins bndHash (7 / 8) 50
    (List.replicate 50 'a') (List.replicate 50 'b')
    (List.replicate 50 'c') (List.replicate 50 'd')
    (List.replicate 50 'e') (List.replicate 50 'f') (List.replicate 60 'g')
    (by unfold goodPara; with_unfolding_all decide)
    (by unfold goodPara; with_unfolding_all decide)
    (by unfold longPara; with_unfolding_all decide)
    (by unfold longPara; with_unfolding_all decide)
    (by with_unfolding_all decide)
    (by unfold goodPara; with_unfolding_all decide)
    (by unfold goodPara; with_unfolding_all decide)
    (by unfold longPara; with_unfolding_all decide)
    (by unfold longPara; with_unfolding_all decide)
    (by with_unfolding_all decide)
    (by unfold goodPara; with_unfolding_all decide)
    (by unfold goodPara; with_unfolding_all decide)
    (by unfold goodPara; with_unfolding_all decide)
    (by unfold longPara; with_unfolding_all decide)
    (by unfold longPara; with_unfolding_all decide)
    (by unfold longPara; with_unfolding_all decide)
    (by with_unfolding_all decide)
    (by with_unfolding_all decide)
    (by with_unfolding_all decide)

theorem parSplitAux_piece_chars (n : ℕ) : ∀ s acc piece : Str, s.length ≤ n →
    piece ∈ parSplitAux s acc → ∀ c ∈ piece, c ∈ s ∨ c ∈ acc := by
  induction n with
  | zero =>
    intro s acc piece hs hp c hc
    have : s = [] := List.length_eq_zero.mp (Nat.le_zero.mp hs)
    subst this
    rw [parSplitAux_nil] at hp
    simp at hp
    subst hp
    exact Or.inr (List.mem_reverse.mp hc)
  | succ n ihn =>
    intro s acc piece hs hp c hc
    match s, hs, hp with
    | [], _, hp =>
      rw [parSplitAux_nil] at hp
      simp at hp
      subst hp
      exact Or.inr (List.mem_reverse.mp hc)
    | [c0], _, hp =>
      rw [parSplitAux_one] at hp
      simp at hp
      subst hp
      rcases List.mem_append.mp hc with h | h
      · exact Or.inr (List.mem_reverse.mp h)
      · exact Or.inl h
    | c0 :: d :: rest, hs, hp =>
      by_cases hcd : (c0 = '\n' && d = '\n') = true
      · rw [parSplitAux_cons2, if_pos hcd] at hp
        rcases List.mem_cons.mp hp with h1 | h2
        · subst h1
          exact Or.inr (List.mem_reverse.mp hc)
        · rcases ihn rest [] piece (by simp at hs ⊢; omega) h2 c hc with h | h
          · exact Or.inl (List.mem_cons_of_mem _ (List.mem_cons_of_mem _ h))
          · simp at h
      · rw [parSplitAux_cons2, if_neg hcd] at hp
        rcases ihn (d :: rest) (c0 :: acc) piece (by simp at hs ⊢; omega) hp c hc
          with h | h
        · exact Or.inl (List.mem_cons_of_mem _ h)
        · rcases List.mem_cons.mp h with h2 | h2
          · exact Or.inl (h2 ▸ List.mem_cons_self _ _)
          · exact Or.inr h2

theorem paragraphsOf_nil_of_allws (s : Str)
    (h : ∀ c ∈ s, isPySpace c = true) : paragraphsOf s = [] := by
  unfold paragraphsOf
  rw [List.filter_eq_nil_iff]
  intro x hx
  rw [List.mem_map] at hx
  obtain ⟨piece, hpc, rfl⟩ := hx
  have hws : ∀ c ∈ piece, isPySpace c = true := by
    intro c hc
    rcases parSplitAux_piece_chars s.length s [] piece le_rfl hpc c hc with h1 | h1
    · exact h c h1
    · simp at h1
  simp [(pyStrip_eq_nil_iff piece).mpr hws]

theorem paragraphsOf_nil_of_cond (s : Str)
    (h : (s.isEmpty || (pyStrip s).isEmpty) = true) : paragraphsOf s = [] := by
  rcases Bool.or_eq_true _ _ |>.mp h with h1 | h1
  · have : s = [] := List.isEmpty_iff.mp h1
    subst this
    exact paragraphsOf_nil_of_allws [] (by simp)
  · exact paragraphsOf_nil_of_allws s
      ((pyStrip_eq_nil_iff s).mp (List.isEmpty_iff.mp h1))

theorem aggFold_pool_mono (f : Str → ℕ) (t : ℚ) (url : Str) (paras : List Str) :
    ∀ st : List (ℕ × Str × Str) × List Str, ∀ e ∈ st.1,
    e ∈ (paras.foldl (aggParaStep f t url) st).1 := by
  induction paras with
  | nil => intro st e he; exact he
  | cons p paras ih =>
    intro st e he
    rw [List.foldl_cons]
    refine ih _ e ?_
    unfold aggParaStep
    by_cases hdup : (st.1.find? (fun en =>
        simBool t en.1 (fingerprint f p))).isSome = true
    · simpa [hdup] using he
    · simp only [Bool.not_eq_true] at hdup
      simp [hdup]
      exact Or.inl he

theorem aggFold_drops_similar (f : Str → ℕ) (t : ℚ) (url : Str)
    (e : ℕ × Str × Str) (q : Str)
    (hsim : simBool t e.1 (fingerprint f q) = true) (paras : List Str) :
    ∀ st : List (ℕ × Str × Str) × List Str, e ∈ st.1 → q ∉ st.2 →
    q ∉ (paras.foldl (aggParaStep f t url) st).2 := by
  induction paras with
  | nil => intro st _ hq; exact hq
  | cons p paras ih =>
    intro st he hq
    rw [List.foldl_cons]
    by_cases hdup : (st.1.find? (fun en =>
        simBool t en.1 (fingerprint f p))).isSome = true
    · have hstate : aggParaStep f t url st p = st := by
        simp [aggParaStep, hdup]
      rw [hstate]
      exact ih st he hq
    · have hpq : p ≠ q := by
        intro hcon
        subst hcon
        exact hdup (List.find?_isSome.mpr ⟨e, he, hsim⟩)
      simp only [Bool.not_eq_true] at hdup
      have hstate : aggParaStep f t url st p =
          (st.1 ++ [(fingerprint f p, p, url)], st.2 ++ [p]) := by
        simp [aggParaStep, hdup]
      rw [hstate]
      refine ih _ (List.mem_append_left _ he) ?_
      intro hcon
      rcases List.mem_append.mp hcon with h1 | h1
      · exact hq h1
      · simp at h1
        exact hpq h1.symm

theorem aggFold_kept_in_pool (f : Str → ℕ) (t : ℚ) (url : Str)
    (paras : List Str) : ∀ st : List (ℕ × Str × Str) × List Str,
    (∀ x ∈ st.2, (fingerprint f x, x, url) ∈ st.1) →
    ∀ x ∈ (paras.foldl (aggParaStep f t url) st).2,
      (fingerprint f x, x, url) ∈ (paras.foldl (aggParaStep f t url) st).1 := by
  induction paras with
  | nil => intro st h x hx; exact h x hx
  | cons p paras ih =>
    intro st h x hx
    rw [List.foldl_cons] at hx ⊢
    refine ih _ ?_ x hx
    intro y hy
    unfold aggParaStep at hy ⊢
    by_cases hdup : (st.1.find? (fun en =>
        simBool t en.1 (fingerprint f p))).isSome = true
    · simp only [hdup, if_pos] at hy ⊢
      exact h y hy
    · simp only [Bool.not_eq_true] at hdup
      simp only [hdup] at hy ⊢
      simp at hy ⊢
      rcases hy with h1 | h1
      · exact Or.inl (h y h1)
      · subst h1
        exact Or.inr ⟨rfl, rfl⟩

theorem aggFold_kept_mem (f : Str → ℕ) (t : ℚ) (url : Str) (paras : List Str) :
    ∀ st : List (ℕ × Str × Str) × List Str, ∀ x ∈
      (paras.foldl (aggParaStep f t url) st).2, x ∈ st.2 ∨ x ∈ paras := by
  induction paras with
  | nil => intro st x hx; exact Or.inl hx
  | cons p paras ih =>
    intro st x hx
    rw [List.foldl_cons] at hx
    rcases ih _ x hx with h1 | h1
    · unfold aggParaStep at h1
      by_cases hdup : (st.1.find? (fun en =>
          simBool t en.1 (fingerprint f p))).isSome = true
      · simp only [hdup, if_pos] at h1
        exact Or.inl h1
      · simp only [Bool.not_eq_true] at hdup
        simp only [hdup] at h1
        simp at h1
        rcases h1 with h2 | h2
        · exact Or.inl h2
        · exact Or.inr (h2 ▸ List.mem_cons_self _ _)
    · exact Or.inr (List.mem_cons_of_mem _ h1)

theorem aggregate_two (f : Str → ℕ) (t : ℚ) (A B : PageRec) :
    aggregate_and_dedup f t [A, B] =
      [(aggPage f t [] A).2, (aggPage f t (aggPage f t [] A).1 B).2] := by
  unfold aggregate_and_dedup
  rw [if_neg (by simp)]
  simp

theorem aggPage_skip (f : Str → ℕ) (t : ℚ) (pool : List (ℕ × Str × Str))
    (page : PageRec)
    (h : (page.content.isEmpty || (pyStrip page.content).isEmpty) = true) :
    aggPage f t pool page = (pool, page) := by
  unfold aggPage
  rw [h]
  rfl

theorem aggPage_eq (f : Str → ℕ) (t : ℚ) (pool : List (ℕ × Str × Str))
    (page : PageRec)
    (h : (page.content.isEmpty || (pyStrip page.content).isEmpty) = false) :
    aggPage f t pool page = (aggPool f t pool page,
      PageRec.mk page.url (joinPar (aggKept f t pool page))
        page.success page.error) := by
  unfold aggPage aggPool aggKept
  rw [h]
  rfl

theorem aggKept_sub (f : Str → ℕ) (t : ℚ) (pool : List (ℕ × Str × Str))
    (page : PageRec) : ∀ x ∈ aggKept f t pool page,
    x ∈ paragraphsOf page.content := by
  intro x hx
  rcases aggFold_kept_mem f t page.url (paragraphsOf page.content) (pool, []) x hx
    with h | h
  · simp at h
  · exact h

theorem aggKept_good (f : Str → ℕ) (t : ℚ) (pool : List (ℕ × Str × Str))
    (page : PageRec) : ∀ x ∈ aggKept f t pool page, goodPara x :=
  fun x hx => paragraphsOf_good _ _ (aggKept_sub f t pool page x hx)

theorem aggKept_in_pool (f : Str → ℕ) (t : ℚ) (pool : List (ℕ × Str × Str))
    (page : PageRec) : ∀ x ∈ aggKept f t pool page,
    (fingerprint f x, x, page.url) ∈ aggPool f t pool page := by
  intro x hx
  exact aggFold_kept_in_pool f t page.url (paragraphsOf page.content) (pool, [])
    (by simp) x hx

theorem aggKept_drops (f : Str → ℕ) (t : ℚ) (pool : List (ℕ × Str × Str))
    (page : PageRec) (e : ℕ × Str × Str) (q : Str) (he : e ∈ pool)
    (hs : simBool t e.1 (fingerprint f q) = true) :
    q ∉ aggKept f t pool page :=
  aggFold_drops_similar f t page.url e q hs (paragraphsOf page.content)
    (pool, []) he (by simp)

theorem not_mem_kept_paragraphs (f : Str → ℕ) (t : ℚ)
    (pool : List (ℕ × Str × Str)) (page : PageRec) (q : Str)
    (h : q ∉ aggKept f t pool page) :
    q ∉ paragraphsOf (joinPar (aggKept f t pool page)) := by
  by_cases hK : aggKept f t pool page = []
  · rw [hK]
    have hnil : paragraphsOf (joinPar ([] : List Str)) = [] := by decide
    rw [hnil]
    simp
  · rw [paragraphsOf_joinPar _ hK (aggKept_good f t pool page)]
    exact h

theorem mem_kept_of_paragraphs (f : Str → ℕ) (t : ℚ)
    (pool : List (ℕ × Str × Str)) (page : PageRec) (p : Str)
    (hp : p ∈ paragraphsOf (joinPar (aggKept f t pool page))) :
    p ∈ aggKept f t pool page := by
  by_cases hK : aggKept f t pool page = []
  · rw [hK] at hp
    have hnil : paragraphsOf (joinPar ([] : List Str)) = [] := by decide
    rw [hnil] at hp
    simp at hp
  · rwa [paragraphsOf_joinPar _ hK (aggKept_good f t pool page)] at hp

theorem aggPools_cons (f : Str → ℕ) (t : ℚ) (pool : List (ℕ × Str × Str))
    (pg : PageRec) (pgs : List PageRec) :
    aggPools f t pool (pg :: pgs) =
      (aggPage f t pool pg).2 :: aggPools f t (aggPage f t pool pg).1 pgs := rfl

theorem aggFold_eq_aggPools (f : Str → ℕ) (t : ℚ) :
    ∀ (pages : List PageRec) (pool : List (ℕ × Str × Str))
      (acc : List PageRec),
    (pages.foldl
      (fun st pg =>
        let r := aggPage f t st.1 pg
        (r.1, st.2 ++ [r.2]))
      (pool, acc)).2 = acc ++ aggPools f t pool pages := by
  intro pages
  induction pages with
  | nil =>
    intro pool acc
    simp [aggPools]
  | cons pg pgs ih =>
    intro pool acc
    rw [List.foldl_cons]
    show (pgs.foldl
        (fun st pg =>
          let r := aggPage f t st.1 pg
          (r.1, st.2 ++ [r.2]))
        ((aggPage f t pool pg).1, acc ++ [(aggPage f t pool pg).2])).2 =
      acc ++ aggPools f t pool (pg :: pgs)
    rw [ih (aggPage f t pool pg).1 (acc ++ [(aggPage f t pool pg).2]),
        aggPools_cons]
    simp

theorem aggPools_getD (f : Str → ℕ) (t : ℚ) (d : PageRec) :
    ∀ (i : ℕ) (pages : List PageRec) (pool : List (ℕ × Str × Str)),
    i < pages.length →
    (aggPools f t pool pages).getD i d =
      (aggPage f t (aggPoolAfter f t pool (pages.take i))
        (pages.getD i d)).2 := by
  intro i
  induction i with
  | zero =>
    intro pages pool hi
    cases pages with
    | nil => simp at hi
    | cons pg pgs => rfl
  | succ n ih =>
    intro pages pool hi
    cases pages with
    | nil => simp at hi
    | cons pg pgs =>
      exact ih pgs (aggPage f t pool pg).1 (Nat.lt_of_succ_lt_succ hi)

theorem aggPoolAfter_take_succ (f : Str → ℕ) (t : ℚ) (d : PageRec) :
    ∀ (i : ℕ) (pages : List PageRec) (pool : List (ℕ × Str × Str)),
    i < pages.length →
    aggPoolAfter f t pool (pages.take (i+1)) =
      (aggPage f t (aggPoolAfter f t pool (pages.take i))
        (pages.getD i d)).1 := by
  intro i
  induction i with
  | zero =>
    intro pages pool hi
    cases pages with
    | nil => simp at hi
    | cons pg pgs => rfl
  | succ n ih =>
    intro pages pool hi
    cases pages with
    | nil => simp at hi
    | cons pg pgs =>
      exact ih pgs (aggPage f t pool pg).1 (Nat.lt_of_succ_lt_succ hi)

theorem aggPage_pool_mono (f : Str → ℕ) (t : ℚ)
    (pool : List (ℕ × Str × Str)) (page : PageRec) (e : ℕ × Str × Str)
    (he : e ∈ pool) : e ∈ (aggPage f t pool page).1 := by
  unfold aggPage
  by_cases h : (page.content.isEmpty || (pyStrip page.content).isEmpty) = true
  · rw [if_pos h]
    exact he
  · rw [if_neg h]
    exact aggFold_pool_mono f t page.url (paragraphsOf page.content)
      (pool, []) e he

theorem aggPoolAfter_mono (f : Str → ℕ) (t : ℚ) :
    ∀ (pages : List PageRec) (pool : List (ℕ × Str × Str))
      (e : ℕ × Str × Str), e ∈ pool → e ∈ aggPoolAfter f t pool pages := by
  intro pages
  induction pages with
  | nil =>
    intro pool e he
    exact he
  | cons pg pgs ih =>
    intro pool e he
    exact ih (aggPage f t pool pg).1 e (aggPage_pool_mono f t pool pg e he)

theorem aggPoolAfter_append (f : Str → ℕ) (t : ℚ) :
    ∀ (xs ys : List PageRec) (pool : List (ℕ × Str × Str)),
    aggPoolAfter f t pool (xs ++ ys) =
      aggPoolAfter f t (aggPoolAfter f t pool xs) ys := by
  intro xs
  induction xs with
  | nil =>
    intro ys pool
    rfl
  | cons x xs ih =>
    intro ys pool
    exact ih ys (aggPage f t pool x).1

theorem getD_take {α : Type} (d : α) :
    ∀ (l : List α) (n i : ℕ), i < n → (l.take n).getD i d = l.getD i d := by
  intro l
  induction l with
  | nil =>
    intro n i _
    cases n <;> rfl
  | cons x xs ih =>
    intro n i hi
    cases n with
    | zero => exact absurd hi (Nat.not_lt_zero i)
    | succ m =>
      cases i with
      | zero => rfl
      | succ k => exact ih m k (Nat.lt_of_succ_lt_succ hi)

theorem getD_append_left {α : Type} (d : α) :
    ∀ (xs ys : List α) (i : ℕ), i < xs.length →
    (xs ++ ys).getD i d = xs.getD i d := by
  intro xs
  induction xs with
  | nil =>
    intro ys i hi
    simp at hi
  | cons x xs ih =>
    intro ys i hi
    cases i with
    | zero => rfl
    | succ k => exact ih ys k (Nat.lt_of_succ_lt_succ hi)

theorem take_append_left {α : Type} :
    ∀ (xs ys : List α) (n : ℕ), n ≤ xs.length →
    (xs ++ ys).take n = xs.take n := by
  intro xs
  induction xs with
  | nil =>
    intro ys n hn
    rw [Nat.le_zero.mp hn]
    rfl
  | cons x xs ih =>
    intro ys n hn
    cases n with
    | zero => rfl
    | succ m =>
      show x :: (xs ++ ys).take m = x :: xs.take m
      rw [ih ys m (Nat.le_of_succ_le_succ hn)]

theorem take_succ_take {α : Type} :
    ∀ (l : List α) (i : ℕ), (l.take (i+1)).take i = l.take i := by
  intro l
  induction l with
  | nil =>
    intro i
    cases i <;> rfl
  | cons x xs ih =>
    intro i
    cases i with
    | zero => rfl
    | succ k =>
      show x :: (xs.take (k+1)).take k = x :: xs.take k
      rw [ih k]

theorem take_split {α : Type} :
    ∀ (l : List α) (m k : ℕ), l.take (m + k) = l.take m ++ (l.drop m).take k := by
  intro l
  induction l with
  | nil =>
    intro m k
    simp
  | cons x xs ih =>
    intro m k
    cases m with
    | zero =>
      rw [Nat.zero_add]
      rfl
    | succ n =>
      rw [Nat.succ_add]
      show x :: xs.take (n + k) = x :: (xs.take n ++ (xs.drop n).take k)
      rw [ih n k]

/-- C5: in cross-page deduplication over an arbitrary ordered batch of
pages, a paragraph of a later page whose fingerprint is within the
similarity threshold of a paragraph kept on any earlier page is removed
entirely from the later page, while the earlier page's outcome depends
only on the pages up to and including it (it is unchanged under any
continuation of the batch) — first occurrence wins and no longer-wins
replacement reaches back across pages. -/
theorem aggregate_first_occurrence_wins (f : Str → ℕ) (t : ℚ)
    (pages : List PageRec) (i j : ℕ) (d : PageRec) (p q : Str)
    (hij : i < j) (hj : j < pages.length)
    (hp : p ∈ paragraphsOf ((aggregate_and_dedup f t pages).getD i d).content)
    (hq : q ∈ paragraphsOf (pages.getD j d).content)
    (hsim : simBool t (fingerprint f p) (fingerprint f q) = true) :
    q ∉ paragraphsOf ((aggregate_and_dedup f t pages).getD j d).content ∧
    ∀ rest : List PageRec, 1 < (pages.take (i+1) ++ rest).length →
      (aggregate_and_dedup f t (pages.take (i+1) ++ rest)).getD i d =
        (aggregate_and_dedup f t pages).getD i d := by
  have hi : i < pages.length := Nat.lt_trans hij hj
  have hlen : ¬ pages.length ≤ 1 := by omega
  have hagg : aggregate_and_dedup f t pages = aggPools f t [] pages := by
    unfold aggregate_and_dedup
    rw [if_neg hlen, aggFold_eq_aggPools f t pages [] []]
    rfl
  rw [hagg] at hp ⊢
  rw [aggPools_getD f t d i pages [] hi] at hp
  by_cases hAi : ((pages.getD i d).content.isEmpty ||
      (pyStrip (pages.getD i d).content).isEmpty) = true
  · rw [aggPage_skip f t (aggPoolAfter f t [] (pages.take i))
      (pages.getD i d) hAi] at hp
    have hp2 : p ∈ paragraphsOf (pages.getD i d).content := hp
    rw [paragraphsOf_nil_of_cond (pages.getD i d).content hAi] at hp2
    simp at hp2
  · have hAi2 : ((pages.getD i d).content.isEmpty ||
        (pyStrip (pages.getD i d).content).isEmpty) = false :=
      eq_false_of_ne_true hAi
    rw [aggPage_eq f t (aggPoolAfter f t [] (pages.take i))
      (pages.getD i d) hAi2] at hp
    have hpK : p ∈ aggKept f t (aggPoolAfter f t [] (pages.take i))
        (pages.getD i d) :=
      mem_kept_of_paragraphs f t (aggPoolAfter f t [] (pages.take i))
        (pages.getD i d) p hp
    have hentry := aggKept_in_pool f t (aggPoolAfter f t [] (pages.take i))
      (pages.getD i d) p hpK
    have hpool1 : (fingerprint f p, p, (pages.getD i d).url) ∈
        aggPoolAfter f t [] (pages.take (i+1)) := by
      rw [aggPoolAfter_take_succ f t d i pages [] hi,
          aggPage_eq f t (aggPoolAfter f t [] (pages.take i))
            (pages.getD i d) hAi2]
      exact hentry
    have hjsplit := take_split pages (i+1) (j - (i+1))
    rw [(by omega : i + 1 + (j - (i+1)) = j)] at hjsplit
    have hpoolJ : (fingerprint f p, p, (pages.getD i d).url) ∈
        aggPoolAfter f t [] (pages.take j) := by
      rw [hjsplit, aggPoolAfter_append f t (pages.take (i+1))
        ((pages.drop (i+1)).take (j - (i+1))) []]
      exact aggPoolAfter_mono f t ((pages.drop (i+1)).take (j - (i+1)))
        (aggPoolAfter f t [] (pages.take (i+1))) _ hpool1
    constructor
    · rw [aggPools_getD f t d j pages [] hj]
      by_cases hBj : ((pages.getD j d).content.isEmpty ||
          (pyStrip (pages.getD j d).content).isEmpty) = true
      · rw [paragraphsOf_nil_of_cond (pages.getD j d).content hBj] at hq
        simp at hq
      · have hBj2 : ((pages.getD j d).content.isEmpty ||
            (pyStrip (pages.getD j d).content).isEmpty) = false :=
          eq_false_of_ne_true hBj
        rw [aggPage_eq f t (aggPoolAfter f t [] (pages.take j))
          (pages.getD j d) hBj2]
        have hdrop : q ∉ aggKept f t (aggPoolAfter f t [] (pages.take j))
            (pages.getD j d) :=
          aggKept_drops f t (aggPoolAfter f t [] (pages.take j))
            (pages.getD j d) (fingerprint f p, p, (pages.getD i d).url) q
            hpoolJ hsim
        exact not_mem_kept_paragraphs f t
          (aggPoolAfter f t [] (pages.take j)) (pages.getD j d) q hdrop
    · intro rest hlen2
      have hlen2n : ¬ (pages.take (i+1) ++ rest).length ≤ 1 := by omega
      have hagg2 : aggregate_and_dedup f t (pages.take (i+1) ++ rest) =
          aggPools f t [] (pages.take (i+1) ++ rest) := by
        unfold aggregate_and_dedup
        rw [if_neg hlen2n,
            aggFold_eq_aggPools f t (pages.take (i+1) ++ rest) [] []]
        rfl
      rw [hagg2]
      have htklen : (pages.take (i+1)).length = i + 1 := by
        rw [List.length_take, min_eq_left (by omega : i + 1 ≤ pages.length)]
      have hiL : i < (pages.take (i+1) ++ rest).length := by
        rw [List.length_append, htklen]
        omega
      rw [aggPools_getD f t d i (pages.take (i+1) ++ rest) [] hiL,
          aggPools_getD f t d i pages [] hi]
      have e1 : (pages.take (i+1) ++ rest).take i = pages.take i := by
        rw [take_append_left (pages.take (i+1)) rest i (by omega),
            take_succ_take]
      have e2 : (pages.take (i+1) ++ rest).getD i d = pages.getD i d := by
        rw [getD_append_left d (pages.take (i+1)) rest i (by omega),
            getD_take d pages (i+1) i (Nat.lt_succ_self i)]
      rw [e1, e2]

set_option maxRecDepth 400000 in
theorem aggregate_first_occurrence_wins_witness :
    1 < 2 ∧ 2 < pagesC5.length ∧
    "beta".data ∈ paragraphsOf
      ((aggregate_and_dedup fpC5 (17/20) pagesC5).getD 1 dC5).content ∧
    "beta".data ∈ paragraphsOf (pagesC5.getD 2 dC5).content ∧
    simBool (17/20) (fingerprint fpC5 "beta".data)
      (fingerprint fpC5 "beta".data) = true ∧
    ("beta".data ∉ paragraphsOf
        ((aggregate_and_dedup fpC5 (17/20) pagesC5).getD 2 dC5).content ∧
     ∀ rest : List PageRec, 1 < (pagesC5.take 2 ++ rest).length →
      (aggregate_and_dedup fpC5 (17/20) (pagesC5.take 2 ++ rest)).getD 1 dC5 =
        (aggregate_and_dedup fpC5 (17/20) pagesC5).getD 1 dC5) :=
  ⟨by decide, by decide, by with_unfolding_all decide,
   by with_unfolding_all decide, by with_unfolding_all decide,
   aggregate_first_occurrence_wins fpC5 (17/20) pagesC5 1 2 dC5
     "beta".data "beta".data (by decide) (by decide)
     (by with_unfolding_all decide) (by with_unfolding_all decide)
     (by with_unfolding_all decide)⟩

theorem lookupLastAux_url (u : Str) (rs : List PageRec) :
    ∀ acc : Option PageRec, (∀ r, acc = some r → r.url = u) →
    ∀ r, rs.foldl (fun acc r => if r.url = u then some r else acc) acc = some r →
    r.url = u := by
  induction rs with
  | nil =>
    intro acc hacc r h
    exact hacc r h
  | cons x xs ih =>
    intro acc hacc r h
    rw [List.foldl_cons] at h
    refine ih _ ?_ r h
    intro r' h'
    by_cases hx : x.url = u
    · rw [if_pos hx] at h'
      cases h'
      exact hx
    · rw [if_neg hx] at h'
      exact hacc r' h'

theorem lookupLast_url (rs : List PageRec) (u : Str) (r : PageRec)
    (h : lookupLast rs u = some r) : r.url = u :=
  lookupLastAux_url u rs none (fun _ hr => absurd hr (by simp)) r h

theorem levelEntry_url (lr : List PageRec) (r : PageRec) :
    (levelEntry lr r).url = r.url := by
  unfold levelEntry
  cases hL : lookupLast lr r.url with
  | none => rfl
  | some x =>
    have hx : x.url = r.url := lookupLast_url lr r.url x hL
    show (if x.success = true then x else { r with error := x.error }).url = r.url
    by_cases hs : x.success = true
    · rw [if_pos hs]
      exact hx
    · rw [if_neg hs]

theorem levelUpdate_urls (results lr : List PageRec) :
    (levelUpdate results lr).map (fun r => r.url) =
      results.map (fun r => r.url) := by
  unfold levelUpdate
  induction results with
  | nil => rfl
  | cons r rs ih =>
    rw [List.map_cons, List.map_cons, List.map_cons, ih, levelEntry_url]

theorem crawlFold_urls (levels : List (List Str → List PageRec)) :
    ∀ st : List PageRec × List Str,
    ((levels.foldl crawlStep st).1).map (fun r => r.url) =
      st.1.map (fun r => r.url) := by
  induction levels with
  | nil =>
    intro st
    rfl
  | cons lvl ls ih =>
    intro st
    rw [List.foldl_cons, ih]
    unfold crawlStep
    by_cases h : st.2.isEmpty = true
    · rw [if_pos h]
    · rw [if_neg h]
      exact levelUpdate_urls st.1 (lvl st.2)

theorem aggPage_url (f : Str → ℕ) (t : ℚ) (pool : List (ℕ × Str × Str))
    (page : PageRec) : ((aggPage f t pool page).2).url = page.url := by
  unfold aggPage
  by_cases h : (page.content.isEmpty || (pyStrip page.content).isEmpty) = true
  · rw [if_pos h]
  · rw [if_neg h]

theorem aggFold_urls (f : Str → ℕ) (t : ℚ) :
    ∀ (pages : List PageRec) (st : List (ℕ × Str × Str) × List PageRec),
    ((pages.foldl
      (fun st pg =>
        let r := aggPage f t st.1 pg
        (r.1, st.2 ++ [r.2]))
      st).2).map (fun r => r.url) =
    st.2.map (fun r => r.url) ++ pages.map (fun r => r.url) := by
  intro pages
  induction pages with
  | nil =>
    intro st
    simp
  | cons pg pgs ih =>
    intro st
    rw [List.foldl_cons, ih]
    show (st.2 ++ [(aggPage f t st.1 pg).2]).map (fun r => r.url) ++
        pgs.map (fun r => r.url) =
      st.2.map (fun r => r.url) ++ (pg :: pgs).map (fun r => r.url)
    simp [aggPage_url]

theorem aggregate_and_dedup_urls (f : Str → ℕ) (t : ℚ) (pages : List PageRec) :
    (aggregate_and_dedup f t pages).map (fun r => r.url) =
      pages.map (fun r => r.url) := by
  unfold aggregate_and_dedup
  by_cases h : pages.length ≤ 1
  · rw [if_pos h]
  · rw [if_neg h]
    simpa using aggFold_urls f t pages ([], [])

theorem finalizeResults_urls (f : Str → ℕ) (rs : List PageRec) :
    (finalizeResults f rs).map (fun r => r.url) = rs.map (fun r => r.url) := by
  unfold finalizeResults
  by_cases h : 1 < rs.length
  · rw [if_pos h]
    exact aggregate_and_dedup_urls f (17/20) rs
  · rw [if_neg h]

/-- C1: for every non-empty input URL list, crawl_pages returns exactly one
result record per input URL — the url fields of the output, in order, are
exactly the input list, so the output has the same multiset of URLs and is
never shorter than the input. -/
theorem crawl_pages_url_coverage (f : Str → ℕ)
    (levels : List (List Str → List PageRec)) (urls : List Str)
    (h : urls ≠ []) :
    (crawl_pages f levels urls).map (fun r => r.url) = urls ∧
    (crawl_pages f levels urls).length = urls.length := by
  have hne : ¬ (urls.isEmpty = true) := by
    cases urls with
    | nil => exact absurd rfl h
    | cons a as => simp
  have h1 : (crawl_pages f levels urls).map (fun r => r.url) = urls := by
    unfold crawl_pages
    rw [if_neg hne, finalizeResults_urls, crawlFold_urls]
    show (urls.map fun u =>
        PageRec.mk u [] false (some "Not yet attempted".data)).map
      (fun r => r.url) = urls
    rw [List.map_map]
    exact List.map_id urls
  refine ⟨h1, ?_⟩
  conv_rhs => rw [← h1]
  rw [List.length_map]

theorem crawl_pages_url_coverage_witness :
    (["a".data, "b".data] : List Str) ≠ [] ∧
    ((crawl_pages (fun _ => 0)
        [fun us => us.map fun u => PageRec.mk u "x".data true none]
        ["a".data, "b".data]).map (fun r => r.url) = ["a".data, "b".data] ∧
     (crawl_pages (fun _ => 0)
        [fun us => us.map fun u => PageRec.mk u "x".data true none]
        ["a".data, "b".data]).length =
       (["a".data, "b".data] : List Str).length) :=
  ⟨by decide,
   crawl_pages_url_coverage (fun _ => 0)
     [fun us => us.map fun u => PageRec.mk u "x".data true none]
     ["a".data, "b".data] (by decide)⟩

/-- C2 counterexample: a URL whose cascade exhausted every tier (here a
single tier that fails it) is silently absent from the crawl tool result —
the tool returns the empty list — even though crawl_pages itself still
carries an explicit failure record for that URL. -/
theorem crawl_tool_coverage_counterexample :
    crawl_tool (fun _ => 0)
      [fun us => us.map fun u => PageRec.mk u [] false (some "boom".data)]
      none ["a".data] = [] ∧
    (crawl_pages (fun _ => 0)
      [fun us => us.map fun u => PageRec.mk u [] false (some "boom".data)]
      ["a".data]).map (fun r => r.url) = ["a".data] := by
  constructor
  · rfl
  · rfl

/-- C2 amended: when the crawl itself does not raise, the tool result
contains exactly the successfully crawled URLs, in order — URLs whose
cascade failed are dropped from the output rather than reported; only when
the whole crawl raises does every requested URL get an explicit failure
entry carrying the exception text. -/
theorem crawl_tool_amended (f : Str → ℕ)
    (levels : List (List Str → List PageRec)) (urls : List Str) (e : Str)
    (h : urls ≠ []) :
    (crawl_tool f levels none urls).map (fun en => en.url) =
      ((crawl_pages f levels urls).filter (fun r => r.success)).map
        (fun r => r.url) ∧
    (crawl_tool f levels (some e) urls).map (fun en => en.url) = urls ∧
    (∀ en ∈ crawl_tool f levels (some e) urls,
      en.success = some false ∧ en.error = some e) := by
  have hne : ¬ (urls.isEmpty = true) := by
    cases urls with
    | nil => exact absurd rfl h
    | cons a as => simp
  refine ⟨?_, ?_, ?_⟩
  · unfold crawl_tool
    rw [if_neg hne]
    show (((crawl_pages f levels urls).filter (fun r => r.success)).map
        fun p => ToolEntry.mk p.url (some p.content) none none).map
      (fun en => en.url) = _
    rw [List.map_map]
    rfl
  · unfold crawl_tool
    rw [if_neg hne]
    show (urls.map fun u =>
        ToolEntry.mk u none (some false) (some e)).map (fun en => en.url) = urls
    rw [List.map_map]
    exact List.map_id urls
  · intro en hen
    have hen2 : en ∈ urls.map fun u =>
        ToolEntry.mk u none (some false) (some e) := by
      unfold crawl_tool at hen
      rw [if_neg hne] at hen
      exact hen
    rcases List.mem_map.mp hen2 with ⟨u, hu, rfl⟩
    exact ⟨rfl, rfl⟩

theorem crawl_tool_amended_witness :
    (["a".data] : List Str) ≠ [] ∧
    ((crawl_tool (fun _ => 0)
        [fun us => us.map fun u => PageRec.mk u "x".data true none]
        none ["a".data]).map (fun en => en.url) =
      ((crawl_pages (fun _ => 0)
          [fun us => us.map fun u => PageRec.mk u "x".data true none]
          ["a".data]).filter (fun r => r.success)).map (fun r => r.url) ∧
     (crawl_tool (fun _ => 0)
        [fun us => us.map fun u => PageRec.mk u "x".data true none]
        (some "E".data) ["a".data]).map (fun en => en.url) = ["a".data] ∧
     (∀ en ∈ crawl_tool (fun _ => 0)
        [fun us => us.map fun u => PageRec.mk u "x".data true none]
        (some "E".data) ["a".data],
        en.success = some false ∧ en.error = some "E".data)) :=
  ⟨by decide,
   crawl_tool_amended (fun _ => 0)
     [fun us => us.map fun u => PageRec.mk u "x".data true none]
     ["a".data] "E".data (by decide)⟩

end CIP
